import Mathlib

/-!
Verification of the tree module (`trees.hh`) of the STL_containers_algos
repository: binary trees, binary search trees and AVL trees.

Two shallow embeddings of the C++ code are used.

* A functional embedding `Trees.Tree`: the pointer structure
  (`shared_ptr<Node>` children, `weak_ptr` parent back-references) is
  represented by an inductive binary tree; in-place pointer surgery becomes
  rebuilding along the affected path, and the upward parent walks of the C++
  code become structural recursion along the (unique) root-to-node path.
  Keys are `Int` (the C++ code is generic over a totally ordered `T`).

* A pointer-arena embedding `PTrees.PTree` for claims that are genuinely
  about parent back-references and about null-pointer dereferences: nodes
  live in an arena indexed by `Nat`, each carrying `key`, `left`, `right`,
  `parent` fields exactly as `BinaryTree<T>::Node` does; a null
  `shared_ptr` is `Option.none`, and an operation that dereferences a null
  pointer (undefined behaviour in the C++ source) returns `none`.
-/

namespace Trees

/-- A binary tree of `Int` keys.  `leaf` is the null `shared_ptr<Node>`;
`node l k r` is a `Node` with key `k`, left child `l`, right child `r`. -/
inductive Tree where
  | leaf : Tree
  | node : Tree → Int → Tree → Tree
deriving DecidableEq, Repr

namespace Tree

/-- `BinaryTree::size(node)`: number of nodes of the subtree. -/
def size : Tree → Nat
  | .leaf => 0
  | .node l _ r => size l + size r + 1

/-- `BinaryTree::height(node)`: height of the subtree, the height of an
absent node being `-1` (as documented in the source). -/
def height : Tree → Int
  | .leaf => -1
  | .node l _ r => max (height l) (height r) + 1

/-- `BinaryTree::in_order`: recursive in-order traversal (left, visit,
right); the visit sequence delivered to the callback. -/
def inorder : Tree → List Int
  | .leaf => []
  | .node l k r => inorder l ++ k :: inorder r

/-- `BinaryTree::pre_order`: recursive pre-order traversal (visit, left,
right). -/
def preorder : Tree → List Int
  | .leaf => []
  | .node l k r => k :: (preorder l ++ preorder r)

/-- `BinaryTree::post_order`: recursive post-order traversal (left, right,
visit). -/
def postorder : Tree → List Int
  | .leaf => []
  | .node l k r => postorder l ++ postorder r ++ [k]

end Tree

open Tree

/-- `BinarySearchTree::_iter_insert` (CLRS TREE-INSERT): descend comparing
the new key (`x < key` goes left, otherwise right, so duplicates are routed
right) until an absent child is reached, and attach the new leaf there.
The C++ loop tracks the parent pointer; rebuilding along the descent path
expresses the same attachment functionally. -/
def iterInsert : Tree → Int → Tree
  | .leaf, x => .node .leaf x .leaf
  | .node l k r, x =>
    if x < k then .node (iterInsert l x) k r else .node l k (iterInsert r x)

/-- `BinarySearchTree::_rec_insert`: recursive insert, same comparison
policy (`x < key` left, otherwise right). -/
def recInsert : Tree → Int → Tree
  | .leaf, x => .node .leaf x .leaf
  | .node l k r, x =>
    if x < k then .node (recInsert l x) k r else .node l k (recInsert r x)

/-- `BinarySearchTree(vector)` / repeated `iter_insert` from an empty tree. -/
def insertListIter (ks : List Int) : Tree := ks.foldl iterInsert .leaf

/-- Repeated `insert` (recursive) from an empty tree. -/
def insertListRec (ks : List Int) : Tree := ks.foldl recInsert .leaf

/-- All keys of a subtree satisfy `p` (used to state the BST invariant). -/
def AllKeys (p : Int → Prop) : Tree → Prop
  | .leaf => True
  | .node l k r => AllKeys p l ∧ p k ∧ AllKeys p r

/-- The BST ordering invariant of the spec: at every node, every key of the
left subtree is strictly less than the node's key and every key of the
right subtree is greater-or-equal (duplicates route right). -/
def Ordered : Tree → Prop
  | .leaf => True
  | .node l k r =>
    Ordered l ∧ Ordered r ∧ AllKeys (· < k) l ∧ AllKeys (k ≤ ·) r

/-! ## AVL tree: rotations and the rebalance walk -/

/-- Key of a node (`m_key`); `0` stands for the unreachable read of an
absent node's key. -/
def keyOf : Tree → Int
  | .leaf => 0
  | .node _ k _ => k

/-- Left child field (`m_left`) of a node; reading it on an absent node
never happens on the paths the code takes. -/
def leftOf : Tree → Tree
  | .leaf => .leaf
  | .node l _ _ => l

/-- Right child field (`m_right`). -/
def rightOf : Tree → Tree
  | .leaf => .leaf
  | .node _ _ r => r

/-- `AVLTree::left_rotate(x)` (CLRS LEFT-ROTATE), as the transformation of
the subtree rooted at `x`: if `x` has no right child the function returns
immediately, otherwise `y = x->m_right` moves into `x`'s slot, `y`'s left
subtree becomes `x`'s right subtree, and `x` becomes `y`'s left child.
The parent-pointer writes of the C++ code are the back-references of
exactly these child-slot changes. -/
def rotateLeft : Tree → Tree
  | .leaf => .leaf
  | .node l k .leaf => .node l k .leaf
  | .node l k (.node rl rk rr) => .node (.node l k rl) rk rr

/-- `AVLTree::right_rotate(x)`, the mirror image of `left_rotate`. -/
def rotateRight : Tree → Tree
  | .leaf => .leaf
  | .node .leaf k r => .node .leaf k r
  | .node (.node ll lk lr) k r => .node ll lk (.node lr k r)

/-- The test `rebalance` performs at one node `x`: left heavy means
`height(x->m_left) > height(x->m_right) + 1`, right heavy the mirror. -/
def unbalanced : Tree → Bool
  | .leaf => false
  | .node l _ r => height l > height r + 1 || height r > height l + 1

/-- One arm of the `rebalance` loop body at node `x`: if `x` is left heavy,
rotate right (straight-line case, `height(x->m_left->m_left) >=
height(x->m_left->m_right)`) or left-rotate the left child first (zig-zag);
mirrored when right heavy; otherwise leave the node alone.  When a side is
heavy its child is present, so the `leftOf`/`rightOf` field reads mirror
the safe dereferences `x->m_left->m_left` etc. of the source. -/
def fixNode : Tree → Tree
  | .leaf => .leaf
  | .node l k r =>
    if height l > height r + 1 then
      if height (leftOf l) ≥ height (rightOf l) then
        rotateRight (.node l k r)
      else
        rotateRight (.node (rotateLeft l) k r)
    else if height r > height l + 1 then
      if height (rightOf r) ≥ height (leftOf r) then
        rotateLeft (.node l k r)
      else
        rotateLeft (.node l k (rotateRight r))
    else .node l k r

/-- After `rebalance` rotates at `x`, the loop variable `x = x->m_parent`
is the new root of the same slot, so the same slot is examined again until
it is no longer unbalanced, and only then does the walk move to the parent.
The source's `while` loop is modelled with fuel; `rebalanceAt` supplies
`size t` fuel, which the claims' proofs show is never exhausted on the
trees they quantify over (at most one fix is ever needed there). -/
def slotLoop : Nat → Tree → Tree
  | 0, t => t
  | fuel + 1, t => if unbalanced t then slotLoop fuel (fixNode t) else t

/-- The visits `rebalance` pays to one slot of the tree. -/
def rebalanceAt (t : Tree) : Tree := slotLoop (size t) t

/-- `AVLTree::insert`: `_iter_insert` places the new key as a leaf along
the comparison path, then `rebalance` walks from the new node up to the
root; bottom-up slot fixing along the insertion path is exactly the
recursive rebuild below (the walk starts at the freshly inserted leaf,
where the balance test is trivially false). -/
def avlIns : Tree → Int → Tree
  | .leaf, x => rebalanceAt (.node .leaf x .leaf)
  | .node l k r, x =>
    if x < k then rebalanceAt (.node (avlIns l x) k r)
    else rebalanceAt (.node l k (avlIns r x))

/-- Repeated `AVLTree::insert` from an empty tree
(`AVLTree(vector)` constructor). -/
def insertListAVL (ks : List Int) : Tree := ks.foldl avlIns .leaf

/-- A rotation event: `rotL k` / `rotR k` records `left_rotate(x)` /
`right_rotate(x)` applied at the node `x` holding key `k`. -/
inductive REv where
  | rotL : Int → REv
  | rotR : Int → REv
deriving DecidableEq, Repr

/-- `fixNode` instrumented with the rotations `rebalance` performs at the
node (the zig-zag cases perform two). -/
def fixNodeEv : Tree → Tree × List REv
  | .leaf => (.leaf, [])
  | .node l k r =>
    if height l > height r + 1 then
      if height (leftOf l) ≥ height (rightOf l) then
        (rotateRight (.node l k r), [.rotR k])
      else
        (rotateRight (.node (rotateLeft l) k r), [.rotL (keyOf l), .rotR k])
    else if height r > height l + 1 then
      if height (rightOf r) ≥ height (leftOf r) then
        (rotateLeft (.node l k r), [.rotL k])
      else
        (rotateLeft (.node l k (rotateRight r)), [.rotR (keyOf r), .rotL k])
    else (.node l k r, [])

/-- `slotLoop` instrumented with rotation events. -/
def slotLoopEv : Nat → Tree → Tree × List REv
  | 0, t => (t, [])
  | fuel + 1, t =>
    if unbalanced t then
      let p := fixNodeEv t
      let q := slotLoopEv fuel p.1
      (q.1, p.2 ++ q.2)
    else (t, [])

/-- `rebalanceAt` instrumented with rotation events. -/
def rebalanceAtEv (t : Tree) : Tree × List REv := slotLoopEv (size t) t

/-- `AVLTree::insert` instrumented with the list of rotations performed,
in order. -/
def avlInsEv : Tree → Int → Tree × List REv
  | .leaf, x => rebalanceAtEv (.node .leaf x .leaf)
  | .node l k r, x =>
    if x < k then
      let p := avlInsEv l x
      let q := rebalanceAtEv (.node p.1 k r)
      (q.1, p.2 ++ q.2)
    else
      let p := avlInsEv r x
      let q := rebalanceAtEv (.node l k p.1)
      (q.1, p.2 ++ q.2)

/-- Repeated instrumented `AVLTree::insert` from an empty tree, collecting
all rotation events. -/
def insertListAVLEv (ks : List Int) : Tree × List REv :=
  ks.foldl (fun acc x => let p := avlInsEv acc.1 x; (p.1, acc.2 ++ p.2))
    (.leaf, [])

/-! ## Ordering through AVL rotations -/

/-- The relaxed ordering invariant maintained by AVL insertion: at every
node the left-subtree keys are `≤` the node's key and the right-subtree
keys are `≥` it (a rotation on duplicate keys can move an equal key into a
left subtree, so strictness on the left is not preserved). -/
def OrderedW : Tree → Prop
  | .leaf => True
  | .node l k r =>
    OrderedW l ∧ OrderedW r ∧ AllKeys (· ≤ k) l ∧ AllKeys (k ≤ ·) r

/-! ## The AVL balance invariant -/

/-- The AVL balance invariant of the spec: at every node the heights of the
left and right subtrees (the height of an absent subtree being `-1`)
differ by at most 1. -/
def BalancedT : Tree → Prop
  | .leaf => True
  | .node l _ r =>
    BalancedT l ∧ BalancedT r ∧
      height l ≤ height r + 1 ∧ height r ≤ height l + 1

/-! ## `find`: rank lookup by in-order traversal (claim C8) -/

/-- One callback invocation of `BinarySearchTree::in_order_find`: the
state is `(find_count, is_found)`; once found, later visits return
immediately, otherwise the counter is incremented and the flag set when
the visited key equals the target. -/
def findStep (target : Int) (st : Int × Bool) (e : Int) : Int × Bool :=
  if st.2 then st else (st.1 + 1, e = target)

/-- `BinarySearchTree::find`: run a full in-order traversal with
`in_order_find` starting from `find_count = -1`, `is_found = false`, and
return the counter if the flag was set, else `-1`. -/
def find (t : Tree) (target : Int) : Int :=
  let st := (inorder t).foldl (findStep target) (-1, false)
  if st.2 then st.1 else -1

/-! ## Search, minimum/maximum, successor/predecessor, remove
(claims C4 and C5) -/

/-- The spec's error taxonomy.  The C++ `EmptyTreeError` is EmptyTree; the
C++ `ValueError` ("Input value not in BinarySearchTree", "Successor does
not exist", ...) is the spec's KeyNotFound. -/
inductive Err where
  | emptyTree : Err
  | keyNotFound : Err
deriving DecidableEq, Repr

/-- `BinarySearchTree::search`, recording also the descent path: each
entry is `(wentLeft, ancestor key)`, nearest ancestor first.  The path
entries stand for the parent pointers the C++ code walks in
`successor`/`predecessor`: the found node is its parent's left child
exactly when the descent went left there. -/
def searchPath :
    Tree → Int → List (Bool × Int) → Option (Tree × List (Bool × Int))
  | .leaf, _, _ => none
  | .node l k r, x, p =>
    if x = k then some (.node l k r, p)
    else if x < k then searchPath l x ((true, k) :: p)
    else searchPath r x ((false, k) :: p)

/-- `BinarySearchTree::minimum(node)`: descend left while a left child is
present. -/
def minimumN : Tree → Tree
  | .leaf => .leaf
  | .node .leaf k r => .node .leaf k r
  | .node (.node ll lk lr) _ _ => minimumN (.node ll lk lr)

/-- `BinarySearchTree::maximum(node)`: descend right while a right child
is present. -/
def maximumN : Tree → Tree
  | .leaf => .leaf
  | .node l k .leaf => .node l k .leaf
  | .node _ _ (.node rl rk rr) => maximumN (.node rl rk rr)

/-- `BinarySearchTree::minimum()`: EmptyTree error on the empty tree, else
the key of the all-left descent. -/
def minimumE : Tree → Except Err Int
  | .leaf => .error .emptyTree
  | .node l k r => .ok (keyOf (minimumN (.node l k r)))

/-- `BinarySearchTree::maximum()`: EmptyTree error on the empty tree, else
the key of the all-right descent. -/
def maximumE : Tree → Except Err Int
  | .leaf => .error .emptyTree
  | .node l k r => .ok (keyOf (maximumN (.node l k r)))

/-- The upward walk of `BinarySearchTree::successor`: climb while the
current node is its parent's right child; the first ancestor reached from
its left child is the successor. -/
def succFromPath : List (Bool × Int) → Option Int
  | [] => none
  | (true, k) :: _ => some k
  | (false, _) :: p => succFromPath p

/-- The upward walk of `BinarySearchTree::predecessor`, mirror image. -/
def predFromPath : List (Bool × Int) → Option Int
  | [] => none
  | (false, k) :: _ => some k
  | (true, _) :: p => predFromPath p

/-- `BinarySearchTree::successor(x)`: EmptyTree error on an empty tree;
KeyNotFound (`ValueError`) when `x` is absent; otherwise the minimum of
the found node's right subtree when that subtree is present, else the
first ancestor from which the walk arrives from a left child, and
KeyNotFound (`ValueError` "Successor does not exist") when there is no
such ancestor. -/
def successorE (t : Tree) (x : Int) : Except Err Int :=
  match t with
  | .leaf => .error .emptyTree
  | .node l k r =>
    match searchPath (.node l k r) x [] with
    | none => .error .keyNotFound
    | some (nd, p) =>
      match rightOf nd with
      | .node rl rk rr => .ok (keyOf (minimumN (.node rl rk rr)))
      | .leaf =>
        match succFromPath p with
        | some u => .ok u
        | none => .error .keyNotFound

/-- `BinarySearchTree::predecessor(x)`, mirror image of `successorE`. -/
def predecessorE (t : Tree) (x : Int) : Except Err Int :=
  match t with
  | .leaf => .error .emptyTree
  | .node l k r =>
    match searchPath (.node l k r) x [] with
    | none => .error .keyNotFound
    | some (nd, p) =>
      match leftOf nd with
      | .node ll lk lr => .ok (keyOf (maximumN (.node ll lk lr)))
      | .leaf =>
        match predFromPath p with
        | some u => .ok u
        | none => .error .keyNotFound

/-- `transplant(suc, suc->m_right)` inside case D of
`BinarySearchTree::remove`: replace the leftmost node of the subtree by
its own right child. -/
def delMin : Tree → Tree
  | .leaf => .leaf
  | .node .leaf _ r => r
  | .node (.node ll lk lr) k r => .node (delMin (.node ll lk lr)) k r

/-- The splice `BinarySearchTree::remove(node)` performs at the removed
node's position (CLRS TREE-DELETE): no left child — the right subtree
takes the slot; no right child — the left subtree; two children — the
successor `suc = minimum(right)` takes the slot, keeping its right subtree
when it is the direct right child, otherwise first spliced out of the
right subtree (`delMin`). -/
def removeNode : Tree → Tree
  | .leaf => .leaf
  | .node .leaf _ r => r
  | .node (.node ll lk lr) _ .leaf => .node ll lk lr
  | .node (.node ll lk lr) _ (.node .leaf rk rr) =>
    .node (.node ll lk lr) rk rr
  | .node (.node ll lk lr) _ (.node (.node a m b) rk rr) =>
    .node (.node ll lk lr)
      (keyOf (minimumN (.node (.node a m b) rk rr)))
      (delMin (.node (.node a m b) rk rr))

/-- Descend as `search` does and apply the `remove(node)` splice at the
first node holding `x`; `none` when `x` is absent. -/
def removeAt : Tree → Int → Option Tree
  | .leaf, _ => none
  | .node l k r, x =>
    if x = k then some (removeNode (.node l k r))
    else if x < k then (removeAt l x).map (fun l2 => .node l2 k r)
    else (removeAt r x).map (fun r2 => .node l k r2)

/-- `BinarySearchTree::remove(x)`: EmptyTree error on an empty tree,
KeyNotFound (`ValueError`) when `x` is absent; otherwise the splice.  The
root branch of `transplant(u, v)` assigns `v->m_parent` without checking
`v`, so removing the tree's only node (u = root, v null) dereferences a
null pointer — undefined behaviour, modelled by `none`; that happens
exactly when the found node is the root and has no children. -/
def removeE (t : Tree) (x : Int) : Option (Except Err Tree) :=
  match t with
  | .leaf => some (.error .emptyTree)
  | .node l k r =>
    match removeAt (.node l k r) x with
    | none => some (.error .keyNotFound)
    | some t2 =>
      if x = k ∧ l = .leaf ∧ r = .leaf then none else some (.ok t2)

/-! ## Iterative traversals (claim C6) -/

/-- A guarded stack push (`if (nd->m_left) stk.push(nd->m_left);`): absent
nodes are never pushed. -/
def pushIf : Tree → List Tree → List Tree
  | .leaf, s => s
  | .node l k r, s => .node l k r :: s

/-- Total size of the trees on a stack. -/
def stackSize (s : List Tree) : Nat := (s.map size).sum

/-- Termination measure for the stack machines. -/
def stackMeas (s : List Tree) : Nat := 2 * stackSize s + s.length

/-- `BinaryTree::pre_order_iter`'s loop: pop a node, visit it, push its
right then its left child.  Absent nodes are never pushed, so the `leaf`
stack case is unreachable (skipped harmlessly). -/
def preM : List Tree → List Int
  | [] => []
  | .leaf :: s => preM s
  | .node l k r :: s => k :: preM (pushIf l (pushIf r s))
termination_by s => stackMeas s
decreasing_by
  · simp only [stackMeas, stackSize, size, List.map_cons, List.sum_cons,
      List.length_cons]
    omega
  · cases l <;> cases r <;>
      simp only [pushIf, stackMeas, stackSize, size, List.map_cons,
        List.sum_cons, List.length_cons] <;> omega

/-- `BinaryTree::pre_order_iter`: return on an absent root, else run the
stack machine seeded with the root. -/
def preOrderIter : Tree → List Int
  | .leaf => []
  | .node l k r => preM [.node l k r]

/-- `BinaryTree::in_order_iter`'s loop over the state (stack, current):
descend left pushing nodes, else pop, visit and move to the popped node's
right child.  The stack never holds absent nodes. -/
def inM : List Tree → Tree → List Int
  | s, .node l k r => inM (.node l k r :: s) l
  | [], .leaf => []
  | .leaf :: s, .leaf => inM s .leaf
  | .node _ k r :: s, .leaf => k :: inM s r
termination_by s nd =>
  2 * size nd + (s.map fun e => 2 * size (rightOf e) + 1).sum
decreasing_by
  all_goals
    simp only [size, rightOf, List.map_cons, List.sum_cons]
  all_goals omega

/-- `BinaryTree::in_order_iter`. -/
def inOrderIter : Tree → List Int
  | .leaf => []
  | .node l k r => inM [] (.node l k r)

/-- `BinaryTree::post_order_iter_twostacks`'s first loop, with the second
stack as an accumulator (its drain order is the reverse of push order,
i.e. the accumulator read front-first): pop from the first stack, push the
key onto the accumulator, push left then right children. -/
def postTwoA : List Tree → List Int → List Int
  | [], acc => acc
  | .leaf :: s, acc => postTwoA s acc
  | .node l k r :: s, acc => postTwoA (pushIf r (pushIf l s)) (k :: acc)
termination_by s _ => stackMeas s
decreasing_by
  · simp only [stackMeas, stackSize, size, List.map_cons, List.sum_cons,
      List.length_cons]
    omega
  · cases l <;> cases r <;>
      simp only [pushIf, stackMeas, stackSize, size, List.map_cons,
        List.sum_cons, List.length_cons] <;> omega

/-- `BinaryTree::post_order_iter_twostacks`. -/
def postOrderIterTwoStacks : Tree → List Int
  | .leaf => []
  | .node l k r => postTwoA [.node l k r] []

/-! ### One-stack post-order traversal.

`post_order_iter_onestack` tests `last == nd->m_right`, a `shared_ptr`
*identity* comparison, which structural equality of subtrees does not
capture (two distinct nodes may root equal subtrees).  The machine
therefore runs on trees annotated with a distinct id per node. -/

/-- A binary tree whose nodes carry an id besides the key. -/
inductive ATree where
  | leaf : ATree
  | node : ATree → Int → Nat → ATree → ATree
deriving DecidableEq, Repr

/-- Annotate each node with a distinct id (pre-order numbering from `n`). -/
def annot : Tree → Nat → ATree × Nat
  | .leaf, n => (.leaf, n)
  | .node l k r, n =>
    (.node (annot l (n + 1)).1 k n (annot r ((annot l (n + 1)).2)).1,
      (annot r ((annot l (n + 1)).2)).2)

/-- The ids occurring in an annotated tree. -/
def idsOf : ATree → List Nat
  | .leaf => []
  | .node l _ i r => i :: (idsOf l ++ idsOf r)

/-- Post-order key sequence of an annotated tree. -/
def apost : ATree → List Int
  | .leaf => []
  | .node l k _ r => apost l ++ apost r ++ [k]

/-- `shared_ptr` identity: two null pointers compare equal; two nodes are
the same object exactly when they carry the same id. -/
def sameRef : ATree → ATree → Bool
  | .leaf, .leaf => true
  | .node _ _ i _, .node _ _ j _ => i = j
  | _, _ => false

/-- Id at the root, `none` for an absent tree. -/
def rootId : ATree → Option Nat
  | .leaf => none
  | .node _ _ i _ => some i

/-- `BinaryTree::post_order_iter_onestack`'s loop on the state
(stack, current node `nd`, last visited node `last`): descend left pushing
nodes; at an absent current node peek the stack top — if it has no right
child or its right child is the node visited last, visit it, pop it and
record it as `last`, otherwise move to its right child (the stack is
unchanged by the peek).  The loop runs while the stack is non-empty or
`nd` is present; the C++ `while` is modelled with fuel (`none` = fuel
exhausted; the run lemma shows `stepsA` fuel always suffices).  A stack
holding an absent node cannot arise (nothing absent is ever pushed). -/
def poM : Nat → List ATree → ATree → ATree → Option (List Int)
  | _, [], .leaf, _ => some []
  | 0, _, _, _ => none
  | fuel + 1, s, .node l k i r, last => poM fuel (.node l k i r :: s) l last
  | _ + 1, .leaf :: _, .leaf, _ => none
  | fuel + 1, .node l k i r :: s, .leaf, last =>
    if r = .leaf || sameRef last r then
      (poM fuel s .leaf (.node l k i r)).map (fun xs => k :: xs)
    else poM fuel (.node l k i r :: s) r last

/-- Exact number of loop iterations the one-stack machine spends on a
subtree: one descent per node, one peek-and-visit per node, and one
peek-and-descend-right per node with a right child. -/
def stepsA : ATree → Nat
  | .leaf => 0
  | .node l _ _ r => stepsA l + stepsA r + (if r = .leaf then 2 else 3)

/-- `BinaryTree::post_order_iter_onestack`: return on an absent root, else
run the machine on the id-annotated tree seeded with an empty stack and a
null `last`. -/
def postOrderIterOneStack : Tree → Option (List Int)
  | .leaf => some []
  | .node l k r =>
    poM (stepsA (annot (.node l k r) 0).1) [] (annot (.node l k r) 0).1 .leaf

end Trees

namespace PTrees

/-- A `BinaryTree<T>::Node`: key, owned child links (`m_left`, `m_right`)
and the non-owning parent back-reference (`m_parent`).  Links are arena
indices; `none` is a null pointer. -/
structure PNode where
  key : Int
  left : Option Nat := none
  right : Option Nat := none
  parent : Option Nat := none
deriving DecidableEq, Repr

/-- A tree as the node arena plus the root pointer (`m_root`). -/
structure PTree where
  nodes : List PNode
  root : Option Nat
deriving DecidableEq, Repr

/-- Dereference a node pointer (`*p` / `p->field`); `none` models
dereferencing a null or dangling pointer, which is undefined behaviour in
the source. -/
def getN (a : List PNode) (i : Nat) : Option PNode := a.get? i

/-- `p->m_left = v` (fails on an invalid dereference). -/
def setLeft (a : List PNode) (i : Nat) (v : Option Nat) :
    Option (List PNode) :=
  match a.get? i with
  | none => none
  | some nd => some (a.set i { nd with left := v })

/-- `p->m_right = v`. -/
def setRight (a : List PNode) (i : Nat) (v : Option Nat) :
    Option (List PNode) :=
  match a.get? i with
  | none => none
  | some nd => some (a.set i { nd with right := v })

/-- `p->m_parent = v`. -/
def setParent (a : List PNode) (i : Nat) (v : Option Nat) :
    Option (List PNode) :=
  match a.get? i with
  | none => none
  | some nd => some (a.set i { nd with parent := v })

/-- `AVLTree::left_rotate(x)`, line by line: return if `x->m_right` is
absent; else `x->m_right = y->m_left`; if `y->m_left` is present, its
parent becomes `x`; `y->m_parent = x->m_parent`; then either `m_root = y`
or the proper child slot of `x`'s old parent becomes `y`; finally
`y->m_left = x` and `x->m_parent = y`.  Every pointer field is re-read
from the current arena at the step that reads it in the source. -/
def leftRotateP (t : PTree) (x : Nat) : Option PTree := do
  let nx ← getN t.nodes x
  match nx.right with
  | none => return t
  | some y => do
    let ny ← getN t.nodes y
    let a1 ← setRight t.nodes x ny.left
    let a2 ← match ny.left with
      | none => pure a1
      | some b => setParent a1 b (some x)
    let nx2 ← getN a2 x
    let a3 ← setParent a2 y nx2.parent
    let nx3 ← getN a3 x
    match nx3.parent with
    | none => do
      let a5 ← setLeft a3 y (some x)
      let a6 ← setParent a5 x (some y)
      return { nodes := a6, root := some y }
    | some p => do
      let np ← getN a3 p
      let a4 ← if np.left = some x then setLeft a3 p (some y)
        else setRight a3 p (some y)
      let a5 ← setLeft a4 y (some x)
      let a6 ← setParent a5 x (some y)
      return { nodes := a6, root := t.root }

/-- `AVLTree::right_rotate(x)`, the mirror image. -/
def rightRotateP (t : PTree) (x : Nat) : Option PTree := do
  let nx ← getN t.nodes x
  match nx.left with
  | none => return t
  | some y => do
    let ny ← getN t.nodes y
    let a1 ← setLeft t.nodes x ny.right
    let a2 ← match ny.right with
      | none => pure a1
      | some b => setParent a1 b (some x)
    let nx2 ← getN a2 x
    let a3 ← setParent a2 y nx2.parent
    let nx3 ← getN a3 x
    match nx3.parent with
    | none => do
      let a5 ← setRight a3 y (some x)
      let a6 ← setParent a5 x (some y)
      return { nodes := a6, root := some y }
    | some p => do
      let np ← getN a3 p
      let a4 ← if np.left = some x then setLeft a3 p (some y)
        else setRight a3 p (some y)
      let a5 ← setRight a4 y (some x)
      let a6 ← setParent a5 x (some y)
      return { nodes := a6, root := t.root }

/-- `BinarySearchTree::transplant(u, v)`: if `u` is the root, set
`m_root = v` and then assign `v->m_parent = u->m_parent` *without checking
`v`* — a null-pointer dereference when `v` is absent; otherwise update the
proper child slot of `u`'s parent and, only if `v` is present, set `v`'s
parent. -/
def transplantP (t : PTree) (u : Nat) (v : Option Nat) : Option PTree := do
  if t.root = some u then
    let nu ← getN t.nodes u
    match v with
    | none => none
    | some vi => do
      let a1 ← setParent t.nodes vi nu.parent
      return { nodes := a1, root := v }
  else do
    let nu ← getN t.nodes u
    match nu.parent with
    | none => none
    | some p => do
      let np ← getN t.nodes p
      let a1 ← if np.left = some u then setLeft t.nodes p v
        else setRight t.nodes p v
      match v with
      | some vi => do
        let a2 ← setParent a1 vi (some p)
        return { nodes := a2, root := t.root }
      | none => return { nodes := a1, root := t.root }

/-- State of the breadth-first constructor loop: the arena built so far,
the FIFO `child_queue` of (possibly null) node pointers, and the loop
variable `node` (null before the first odd iteration, as the
default-constructed `shared_ptr`). -/
structure BState where
  arena : List PNode
  queue : List (Option Nat)
  cur : Option Nat
deriving DecidableEq, Repr

/-- The loop of `BinaryTree(const vector<optional<T>>&)` over the elements
from index 1, with `odd` the parity of the index.  Odd index: pop `node`
from the queue, assign its left child from the element (creating a node
whose parent is `node`), then push `node->m_left` — this dereference is
performed even when the popped `node` is null (the `if (node)` guard only
skips the assignment), so a null `node` is undefined behaviour, modelled
`none`.  Even index: same for the right child of the `node` kept from the
previous iteration, pushing `node->m_right`. -/
def bfsLoop : List (Option Int) → Bool → BState → Option BState
  | [], _, st => some st
  | e :: rest, true, st =>
    match st.queue with
    | [] => none
    | q0 :: qs =>
      match q0 with
      | none => none
      | some nid => do
        let a1 ← match e with
          | none => setLeft st.arena nid none
          | some key => do
            let a ← setLeft st.arena nid (some st.arena.length)
            pure (a ++ [{ key := key, parent := some nid : PNode }])
        let nd ← getN a1 nid
        bfsLoop rest false ⟨a1, qs ++ [nd.left], some nid⟩
  | e :: rest, false, st =>
    match st.cur with
    | none => none
    | some nid => do
      let a1 ← match e with
        | none => setRight st.arena nid none
        | some key => do
          let a ← setRight st.arena nid (some st.arena.length)
          pure (a ++ [{ key := key, parent := some nid : PNode }])
      let nd ← getN a1 nid
      bfsLoop rest true ⟨a1, st.queue ++ [nd.right], st.cur⟩

/-- `BinaryTree(const vector<optional<T>>&)`: empty (or absent-rooted)
layouts give the empty tree; otherwise node 0 is the root, the queue
starts holding the root, and the loop consumes the remaining elements
starting at (odd) index 1. -/
def bfsBuild (tv : List (Option Int)) : Option PTree :=
  match tv with
  | [] => some ⟨[], none⟩
  | none :: _ => some ⟨[], none⟩
  | some k :: rest => do
    let st ← bfsLoop rest true ⟨[{ key := k : PNode }], [some 0], none⟩
    return ⟨st.arena, some 0⟩

/-- In-order reading of a pointer tree (fuel-bounded; used only to state
concrete evaluations). -/
def inorderP : Nat → List PNode → Option Nat → List Int
  | 0, _, _ => []
  | _ + 1, _, none => []
  | fuel + 1, a, some i =>
    match getN a i with
    | none => []
    | some nd => inorderP fuel a nd.left ++ nd.key :: inorderP fuel a nd.right

/-- Indices whose parent back-reference differs between two arenas. -/
def parentChangedIdx (a b : List PNode) : List Nat :=
  (List.range a.length).filter (fun i =>
    ((getN a i).map PNode.parent) ≠ ((getN b i).map PNode.parent))

/-- Number of parent back-references that differ between two arenas. -/
def countParentChanges (a b : List PNode) : Nat :=
  (parentChangedIdx a b).length

end PTrees

namespace Trees

open Tree

theorem allKeys_mono {p q : Int → Prop} (h : ∀ x, p x → q x) :
    ∀ t, AllKeys p t → AllKeys q t := by
  intro t
  induction t with
  | leaf => intro _; trivial
  | node l k r ihl ihr =>
    intro ⟨hl, hk, hr⟩
    exact ⟨ihl hl, h _ hk, ihr hr⟩

theorem allKeys_mem {p : Int → Prop} :
    ∀ t, AllKeys p t → ∀ x ∈ inorder t, p x := by
  intro t
  induction t with
  | leaf => intro _ x hx; simp [inorder] at hx
  | node l k r ihl ihr =>
    intro ⟨hl, hk, hr⟩ x hx
    simp only [inorder, List.mem_append, List.mem_cons] at hx
    rcases hx with h | h | h
    · exact ihl hl x h
    · exact h ▸ hk
    · exact ihr hr x h

theorem mem_allKeys {p : Int → Prop} :
    ∀ t, (∀ x ∈ inorder t, p x) → AllKeys p t := by
  intro t
  induction t with
  | leaf => intro _; trivial
  | node l k r ihl ihr =>
    intro h
    refine ⟨ihl ?_, h k ?_, ihr ?_⟩
    · intro x hx; exact h x (by simp [inorder, hx])
    · simp [inorder]
    · intro x hx; exact h x (by simp [inorder, hx])

/-- In-order traversal of a tree satisfying the BST invariant is sorted
(non-decreasing). -/
theorem ordered_inorder_sorted :
    ∀ t, Ordered t → (inorder t).Sorted (· ≤ ·) := by
  intro t
  induction t with
  | leaf => intro _; simp [inorder]
  | node l k r ihl ihr =>
    intro ⟨hol, hor, hbl, hbr⟩
    simp only [inorder, List.Sorted]
    rw [List.pairwise_append]
    refine ⟨ihl hol, ?_, ?_⟩
    · rw [List.pairwise_cons]
      exact ⟨allKeys_mem r hbr, ihr hor⟩
    · intro a ha b hb
      have hak : a < k := allKeys_mem l hbl a ha
      rcases List.mem_cons.mp hb with rfl | hbr'
      · exact le_of_lt hak
      · exact le_trans (le_of_lt hak) (allKeys_mem r hbr b hbr')

theorem allKeys_iterInsert {p : Int → Prop} :
    ∀ t x, AllKeys p t → p x → AllKeys p (iterInsert t x) := by
  intro t x
  induction t with
  | leaf => intro _ hx; exact ⟨trivial, hx, trivial⟩
  | node l k r ihl ihr =>
    intro ⟨hl, hk, hr⟩ hx
    by_cases h : x < k
    · simpa [iterInsert, h] using ⟨ihl hl hx, hk, hr⟩
    · simpa [iterInsert, h] using ⟨hl, hk, ihr hr hx⟩

/-- `_iter_insert` preserves the BST ordering invariant. -/
theorem ordered_iterInsert : ∀ t x, Ordered t → Ordered (iterInsert t x) := by
  intro t x
  induction t with
  | leaf => intro _; exact ⟨trivial, trivial, trivial, trivial⟩
  | node l k r ihl ihr =>
    intro ⟨hol, hor, hbl, hbr⟩
    by_cases h : x < k
    · simpa [iterInsert, h] using
        ⟨ihl hol, hor, allKeys_iterInsert l x hbl h, hbr⟩
    · simpa [iterInsert, h] using
        ⟨hol, ihr hor, hbl, allKeys_iterInsert r x hbr (not_lt.mp h)⟩

theorem recInsert_eq_iterInsert : ∀ t x, recInsert t x = iterInsert t x := by
  intro t x
  induction t with
  | leaf => rfl
  | node l k r ihl ihr =>
    by_cases h : x < k <;> simp [recInsert, iterInsert, h, ihl, ihr]

/-- In-order traversal of a tree satisfying the relaxed invariant is
non-decreasing. -/
theorem orderedW_inorder_sorted :
    ∀ t, OrderedW t → (inorder t).Sorted (· ≤ ·) := by
  intro t
  induction t with
  | leaf => intro _; simp [inorder]
  | node l k r ihl ihr =>
    intro ⟨hol, hor, hbl, hbr⟩
    simp only [inorder, List.Sorted]
    rw [List.pairwise_append]
    refine ⟨ihl hol, ?_, ?_⟩
    · rw [List.pairwise_cons]
      exact ⟨allKeys_mem r hbr, ihr hor⟩
    · intro a ha b hb
      have hak : a ≤ k := allKeys_mem l hbl a ha
      rcases List.mem_cons.mp hb with rfl | hbr'
      · exact hak
      · exact le_trans hak (allKeys_mem r hbr b hbr')

theorem allKeys_rotateLeft {p : Int → Prop} :
    ∀ t, AllKeys p t → AllKeys p (rotateLeft t) := by
  intro t h
  match t with
  | .leaf => exact h
  | .node l k .leaf => exact h
  | .node l k (.node rl rk rr) =>
    obtain ⟨hl, hk, hrl, hrk, hrr⟩ := h
    exact ⟨⟨hl, hk, hrl⟩, hrk, hrr⟩

theorem allKeys_rotateRight {p : Int → Prop} :
    ∀ t, AllKeys p t → AllKeys p (rotateRight t) := by
  intro t h
  match t with
  | .leaf => exact h
  | .node .leaf k r => exact h
  | .node (.node ll lk lr) k r =>
    obtain ⟨⟨hll, hlk, hlr⟩, hk, hr⟩ := h
    exact ⟨hll, hlk, hlr, hk, hr⟩

theorem orderedW_rotateLeft : ∀ t, OrderedW t → OrderedW (rotateLeft t) := by
  intro t h
  match t with
  | .leaf => exact h
  | .node l k .leaf => exact h
  | .node l k (.node rl rk rr) =>
    obtain ⟨hol, ⟨horl, horr, hrlUb, hrrLb⟩, hbl, hkrl, hkrk, hkrr⟩ := h
    refine ⟨⟨hol, horl, hbl, hkrl⟩, horr, ⟨?_, hkrk, hrlUb⟩, hrrLb⟩
    exact allKeys_mono (fun x hx => le_trans hx hkrk) l hbl

theorem orderedW_rotateRight : ∀ t, OrderedW t → OrderedW (rotateRight t) := by
  intro t h
  match t with
  | .leaf => exact h
  | .node .leaf k r => exact h
  | .node (.node ll lk lr) k r =>
    obtain ⟨⟨holl, holr, hllUb, hlrLb⟩, hor, ⟨hllK, hlkk, hlrK⟩, hbr⟩ := h
    refine ⟨holl, ⟨holr, hor, hlrK, hbr⟩, hllUb, hlrLb, hlkk, ?_⟩
    exact allKeys_mono (fun x hx => le_trans hlkk hx) r hbr

theorem allKeys_fixNode {p : Int → Prop} :
    ∀ t, AllKeys p t → AllKeys p (fixNode t) := by
  intro t h
  match t with
  | .leaf => exact h
  | .node l k r =>
    obtain ⟨hl, hk, hr⟩ := h
    simp only [fixNode]
    split
    · split
      · exact allKeys_rotateRight (.node l k r) ⟨hl, hk, hr⟩
      · exact allKeys_rotateRight (.node (rotateLeft l) k r)
          ⟨allKeys_rotateLeft l hl, hk, hr⟩
    · split
      · split
        · exact allKeys_rotateLeft (.node l k r) ⟨hl, hk, hr⟩
        · exact allKeys_rotateLeft (.node l k (rotateRight r))
            ⟨hl, hk, allKeys_rotateRight r hr⟩
      · exact ⟨hl, hk, hr⟩

theorem orderedW_fixNode : ∀ t, OrderedW t → OrderedW (fixNode t) := by
  intro t h
  match t with
  | .leaf => exact h
  | .node l k r =>
    obtain ⟨hol, hor, hbl, hbr⟩ := h
    simp only [fixNode]
    split
    · split
      · exact orderedW_rotateRight (.node l k r) ⟨hol, hor, hbl, hbr⟩
      · exact orderedW_rotateRight (.node (rotateLeft l) k r)
          ⟨orderedW_rotateLeft l hol, hor, allKeys_rotateLeft l hbl, hbr⟩
    · split
      · split
        · exact orderedW_rotateLeft (.node l k r) ⟨hol, hor, hbl, hbr⟩
        · exact orderedW_rotateLeft (.node l k (rotateRight r))
            ⟨hol, orderedW_rotateRight r hor, hbl, allKeys_rotateRight r hbr⟩
      · exact ⟨hol, hor, hbl, hbr⟩

theorem allKeys_slotLoop {p : Int → Prop} :
    ∀ fuel t, AllKeys p t → AllKeys p (slotLoop fuel t) := by
  intro fuel
  induction fuel with
  | zero => intro t h; exact h
  | succ n ih =>
    intro t h
    simp only [slotLoop]
    split
    · exact ih _ (allKeys_fixNode t h)
    · exact h

theorem orderedW_slotLoop : ∀ fuel t, OrderedW t → OrderedW (slotLoop fuel t) := by
  intro fuel
  induction fuel with
  | zero => intro t h; exact h
  | succ n ih =>
    intro t h
    simp only [slotLoop]
    split
    · exact ih _ (orderedW_fixNode t h)
    · exact h

theorem allKeys_avlIns {p : Int → Prop} :
    ∀ t x, AllKeys p t → p x → AllKeys p (avlIns t x) := by
  intro t x
  induction t with
  | leaf =>
    intro _ hx
    exact allKeys_slotLoop _ (.node .leaf x .leaf) ⟨trivial, hx, trivial⟩
  | node l k r ihl ihr =>
    intro ⟨hl, hk, hr⟩ hx
    by_cases h : x < k
    · simpa [avlIns, h, rebalanceAt] using
        allKeys_slotLoop _ (.node (avlIns l x) k r) ⟨ihl hl hx, hk, hr⟩
    · simpa [avlIns, h, rebalanceAt] using
        allKeys_slotLoop _ (.node l k (avlIns r x)) ⟨hl, hk, ihr hr hx⟩

/-- `AVLTree::insert` preserves the relaxed ordering invariant. -/
theorem orderedW_avlIns : ∀ t x, OrderedW t → OrderedW (avlIns t x) := by
  intro t x
  induction t with
  | leaf =>
    intro _
    exact orderedW_slotLoop _ (.node .leaf x .leaf)
      ⟨trivial, trivial, trivial, trivial⟩
  | node l k r ihl ihr =>
    intro ⟨hol, hor, hbl, hbr⟩
    by_cases h : x < k
    · simpa [avlIns, h, rebalanceAt] using
        orderedW_slotLoop _ (.node (avlIns l x) k r)
          ⟨ihl hol, hor, allKeys_avlIns l x hbl (le_of_lt h), hbr⟩
    · simpa [avlIns, h, rebalanceAt] using
        orderedW_slotLoop _ (.node l k (avlIns r x))
          ⟨hol, ihr hor, hbl, allKeys_avlIns r x hbr (not_lt.mp h)⟩

theorem height_ge_neg_one : ∀ t : Tree, -1 ≤ height t := by
  intro t
  cases t with
  | leaf => simp [height]
  | node l k r =>
    simp only [height]
    have := le_max_left (height l) (height r)
    have : -1 ≤ height l := height_ge_neg_one l
    omega

theorem slotLoop_of_root_bal :
    ∀ fuel t, unbalanced t = false → slotLoop fuel t = t := by
  intro fuel t h
  cases fuel with
  | zero => rfl
  | succ n => simp [slotLoop, h]

theorem rebalanceAt_of_root_bal :
    ∀ t, unbalanced t = false → rebalanceAt t = t :=
  fun t h => slotLoop_of_root_bal (size t) t h

theorem rebalanceAt_node_eq_fixNode (l : Tree) (k : Int) (r : Tree)
    (h1 : unbalanced (.node l k r) = true)
    (h2 : unbalanced (fixNode (.node l k r)) = false) :
    rebalanceAt (.node l k r) = fixNode (.node l k r) := by
  show slotLoop (size (.node l k r)) _ = _
  have hs : size (.node l k r) = size l + size r + 1 := rfl
  rw [hs, slotLoop, if_pos h1, slotLoop_of_root_bal _ _ h2]

theorem unbalanced_node (l : Tree) (k : Int) (r : Tree) :
    unbalanced (.node l k r) = false ↔
      height l ≤ height r + 1 ∧ height r ≤ height l + 1 := by
  simp only [unbalanced, Bool.or_eq_false_iff, decide_eq_false_iff_not, not_lt]

/-- Rebalancing a critically left-heavy node (left subtree exactly two
taller, both subtrees internally balanced): one `fixNode` restores the AVL
invariant and yields a subtree of height `height r + 2` or `height r + 3`,
with a root at which the loop's balance test is now false. -/
theorem fix_left_critical (l : Tree) (k : Int) (r : Tree)
    (hbl : BalancedT l) (hbr : BalancedT r)
    (hh : height l = height r + 2) :
    BalancedT (fixNode (.node l k r)) ∧
      (height (fixNode (.node l k r)) = height r + 2 ∨
        height (fixNode (.node l k r)) = height r + 3) ∧
      unbalanced (fixNode (.node l k r)) = false := by
  cases l with
  | leaf =>
    have := height_ge_neg_one r
    simp [height] at hh; omega
  | node ll lk lr =>
    obtain ⟨bll, blr, d1, d2⟩ := hbl
    have hcond : height (Tree.node ll lk lr) > height r + 1 := by omega
    simp only [fixNode, leftOf, rightOf]
    rw [if_pos hcond]
    by_cases hc : height ll ≥ height lr
    · rw [if_pos hc]
      simp only [rotateRight]
      simp only [height] at hh d1 d2 ⊢
      refine ⟨⟨bll, ⟨blr, hbr, ?_, ?_⟩, ?_, ?_⟩, ?_, ?_⟩ <;>
        (try rw [unbalanced_node]) <;> (try simp only [height]) <;> omega
    · rw [if_neg hc]
      cases lr with
      | leaf =>
        have := height_ge_neg_one ll
        simp [height] at hc; omega
      | node a m b =>
        obtain ⟨ba, bb, e1, e2⟩ := blr
        simp only [rotateLeft, rotateRight]
        simp only [height] at hh d1 d2 hc ⊢
        refine ⟨⟨⟨bll, ba, ?_, ?_⟩, ⟨bb, hbr, ?_, ?_⟩, ?_, ?_⟩, ?_, ?_⟩ <;>
          (try rw [unbalanced_node]) <;> (try simp only [height]) <;> omega

/-- Mirror image of `fix_left_critical` for a critically right-heavy
node. -/
theorem fix_right_critical (l : Tree) (k : Int) (r : Tree)
    (hbl : BalancedT l) (hbr : BalancedT r)
    (hh : height r = height l + 2) :
    BalancedT (fixNode (.node l k r)) ∧
      (height (fixNode (.node l k r)) = height l + 2 ∨
        height (fixNode (.node l k r)) = height l + 3) ∧
      unbalanced (fixNode (.node l k r)) = false := by
  cases r with
  | leaf =>
    have := height_ge_neg_one l
    simp [height] at hh; omega
  | node rl rk rr =>
    obtain ⟨brl, brr, d1, d2⟩ := hbr
    have hcond1 : ¬ (height l > height (Tree.node rl rk rr) + 1) := by
      simp only [height] at hh ⊢; omega
    have hcond2 : height (Tree.node rl rk rr) > height l + 1 := by omega
    simp only [fixNode, leftOf, rightOf]
    rw [if_neg hcond1, if_pos hcond2]
    by_cases hc : height rr ≥ height rl
    · rw [if_pos hc]
      simp only [rotateLeft]
      simp only [height] at hh d1 d2 ⊢
      refine ⟨⟨⟨hbl, brl, ?_, ?_⟩, brr, ?_, ?_⟩, ?_, ?_⟩ <;>
        (try rw [unbalanced_node]) <;> (try simp only [height]) <;> omega
    · rw [if_neg hc]
      cases rl with
      | leaf =>
        have := height_ge_neg_one rr
        simp [height] at hc; omega
      | node a m b =>
        obtain ⟨ba, bb, e1, e2⟩ := brl
        simp only [rotateLeft, rotateRight]
        simp only [height] at hh d1 d2 hc ⊢
        refine ⟨⟨⟨hbl, ba, ?_, ?_⟩, ⟨bb, brr, ?_, ?_⟩, ?_, ?_⟩, ?_, ?_⟩ <;>
          (try rw [unbalanced_node]) <;> (try simp only [height]) <;> omega

/-- `AVLTree::insert` preserves the AVL balance invariant, and grows the
tree's height by at most one. -/
theorem avlIns_balanced : ∀ t x, BalancedT t →
    BalancedT (avlIns t x) ∧
      (height (avlIns t x) = height t ∨ height (avlIns t x) = height t + 1) := by
  intro t x
  induction t with
  | leaf =>
    intro _
    have hb : unbalanced (Tree.node .leaf x .leaf) = false := by
      simp [unbalanced, height]
    have : avlIns .leaf x = .node .leaf x .leaf := by
      show rebalanceAt (.node .leaf x .leaf) = _
      exact rebalanceAt_of_root_bal _ hb
    rw [this]
    refine ⟨⟨trivial, trivial, ?_, ?_⟩, ?_⟩ <;> simp [height]
  | node l k r ihl ihr =>
    intro ⟨bl, br, d1, d2⟩
    by_cases h : x < k
    · obtain ⟨bl', hh'⟩ := ihl bl
      simp only [avlIns, if_pos h]
      by_cases hcrit : height (avlIns l x) = height r + 2
      · obtain ⟨hF1, hF2, hF3⟩ := fix_left_critical (avlIns l x) k r bl' br hcrit
        have hub : unbalanced (Tree.node (avlIns l x) k r) = true := by
          simp only [unbalanced, decide_eq_true_eq, Bool.or_eq_true]
          omega
        rw [rebalanceAt_node_eq_fixNode _ _ _ hub hF3]
        refine ⟨hF1, ?_⟩
        simp only [height]; omega
      · have hb : unbalanced (Tree.node (avlIns l x) k r) = false := by
          simp only [unbalanced, Bool.or_eq_false_iff, decide_eq_false_iff_not,
            not_lt]
          have := height_ge_neg_one r
          omega
        rw [rebalanceAt_of_root_bal _ hb]
        refine ⟨⟨bl', br, ?_, ?_⟩, ?_⟩ <;> (try simp only [height]) <;> omega
    · obtain ⟨br', hh'⟩ := ihr br
      simp only [avlIns, if_neg h]
      by_cases hcrit : height (avlIns r x) = height l + 2
      · obtain ⟨hF1, hF2, hF3⟩ := fix_right_critical l k (avlIns r x) bl br' hcrit
        have hub : unbalanced (Tree.node l k (avlIns r x)) = true := by
          simp only [unbalanced, decide_eq_true_eq, Bool.or_eq_true]
          omega
        rw [rebalanceAt_node_eq_fixNode _ _ _ hub hF3]
        refine ⟨hF1, ?_⟩
        simp only [height]; omega
      · have hb : unbalanced (Tree.node l k (avlIns r x)) = false := by
          simp only [unbalanced, Bool.or_eq_false_iff, decide_eq_false_iff_not,
            not_lt]
          have := height_ge_neg_one l
          omega
        rw [rebalanceAt_of_root_bal _ hb]
        refine ⟨⟨bl, br', ?_, ?_⟩, ?_⟩ <;> (try simp only [height]) <;> omega

/-! ## Claim C1 and C2 theorems -/

theorem foldl_iterInsert_ordered :
    ∀ (ks : List Int) (t : Tree), Ordered t →
      Ordered (List.foldl iterInsert t ks) := by
  intro ks
  induction ks with
  | nil => intro t h; exact h
  | cons a l ih => intro t h; exact ih _ (ordered_iterInsert t a h)

theorem foldl_avlIns_orderedW :
    ∀ (ks : List Int) (t : Tree), OrderedW t →
      OrderedW (List.foldl avlIns t ks) := by
  intro ks
  induction ks with
  | nil => intro t h; exact h
  | cons a l ih => intro t h; exact ih _ (orderedW_avlIns t a h)

theorem insertListRec_eq_iter :
    ∀ ks : List Int, insertListRec ks = insertListIter ks := by
  have he : recInsert = iterInsert :=
    funext fun t => funext fun x => recInsert_eq_iterInsert t x
  intro ks
  simp [insertListRec, insertListIter, he]

/-- C1 (amended).  For every sequence of keys inserted into an initially
empty tree, the in-order traversal yields the keys in non-decreasing
order, for all three insertion routines (`_iter_insert`, `_rec_insert` and
`AVLTree::insert`).  Trees reachable by the two plain BST inserts satisfy
the strict ordering invariant (left-subtree keys strictly below the node
key, right-subtree keys greater-or-equal); trees reachable by AVL insert
satisfy the relaxed invariant with `≤` on both sides, because a rotation
performed on duplicate keys can move an equal key into a left subtree. -/
theorem C1_insert_ordering : ∀ ks : List Int,
    Ordered (insertListIter ks) ∧ Ordered (insertListRec ks) ∧
    (inorder (insertListIter ks)).Sorted (· ≤ ·) ∧
    (inorder (insertListRec ks)).Sorted (· ≤ ·) ∧
    OrderedW (insertListAVL ks) ∧
    (inorder (insertListAVL ks)).Sorted (· ≤ ·) := by
  intro ks
  have h1 : Ordered (insertListIter ks) :=
    foldl_iterInsert_ordered ks .leaf trivial
  have h2 : Ordered (insertListRec ks) := by
    rw [insertListRec_eq_iter]; exact h1
  have h5 : OrderedW (insertListAVL ks) :=
    foldl_avlIns_orderedW ks .leaf trivial
  exact ⟨h1, h2, ordered_inorder_sorted _ h1, ordered_inorder_sorted _ h2,
    h5, orderedW_inorder_sorted _ h5⟩

/-- C1 counterexample: after AVL-inserting `5, 5, 5` into an empty tree, a
left rotation moves a duplicate `5` into the left subtree of the root `5`,
so the reachable tree violates the claimed strict BST invariant
("left-subtree keys strictly less than the node's key"); the in-order
sequence `[5, 5, 5]` is nevertheless still non-decreasing. -/
theorem C1_counterexample_duplicates :
    insertListAVL [5, 5, 5] =
      .node (.node .leaf 5 .leaf) 5 (.node .leaf 5 .leaf) ∧
    ¬ Ordered (insertListAVL [5, 5, 5]) := by
  have he : insertListAVL [5, 5, 5] =
      .node (.node .leaf 5 .leaf) 5 (.node .leaf 5 .leaf) := by decide
  refine ⟨he, ?_⟩
  rw [he]
  intro h
  obtain ⟨_, _, ⟨_, h5, _⟩, _⟩ := h
  exact absurd h5 (lt_irrefl 5)

/-- C2.  For every sequence of keys inserted (with no removals) into an
initially empty AVL tree via `AVLTree::insert`, the resulting tree
satisfies the AVL balance invariant at every node: the heights of the left
and right subtrees (height of an absent subtree being `-1`) differ by at
most 1. -/
theorem C2_avl_insert_balanced : ∀ ks : List Int,
    BalancedT (insertListAVL ks) := by
  suffices h : ∀ (ks : List Int) (t : Tree), BalancedT t →
      BalancedT (List.foldl avlIns t ks) from fun ks => h ks .leaf trivial
  intro ks
  induction ks with
  | nil => intro t h; exact h
  | cons a l ih => intro t h; exact ih _ (avlIns_balanced t a h).1

/-- C7.  Inserting the keys 10, 20, 30 in that order into an empty AVL
tree triggers exactly one rotation event, a left rotation applied at the
node holding 10, and produces a tree whose root holds 20 with left child
10 and right child 30. -/
theorem C7_avl_10_20_30_single_left_rotation :
    insertListAVLEv [10, 20, 30] =
      (.node (.node .leaf 10 .leaf) 20 (.node .leaf 30 .leaf),
        [.rotL 10]) := by
  decide

theorem findStep_found (target : Int) :
    ∀ (l : List Int) (c : Int),
      l.foldl (findStep target) (c, true) = (c, true) := by
  intro l
  induction l with
  | nil => intro c; rfl
  | cons e l ih => intro c; simpa [findStep] using ih c

theorem findStep_run (target : Int) :
    ∀ (l : List Int) (c : Int),
      l.foldl (findStep target) (c, false) =
        if target ∈ l then (c + 1 + l.indexOf target, true)
        else (c + l.length, false) := by
  intro l
  induction l with
  | nil => intro c; simp
  | cons e l ih =>
    intro c
    by_cases he : e = target
    · subst he
      simp [findStep, findStep_found, List.indexOf_cons_self]
    · have hne : ¬ target = e := fun h => he h.symm
      have hd : findStep target (c, false) e = (c + 1, false) := by
        simp [findStep, he]
      rw [List.foldl_cons, hd, ih]
      rw [List.indexOf_cons_ne _ he]
      by_cases hm : target ∈ l
      · have hm' : target ∈ e :: l := List.mem_cons_of_mem _ hm
        rw [if_pos hm, if_pos hm']
        rw [Prod.ext_iff]
        refine ⟨?_, rfl⟩
        push_cast
        ring
      · have hm' : target ∉ e :: l := by
          simp [List.mem_cons, hm, hne]
        rw [if_neg hm, if_neg hm']
        rw [Prod.ext_iff]
        refine ⟨?_, rfl⟩
        rw [List.length_cons]
        push_cast
        ring

/-- C8.  For every tree and key, `find` returns the 0-based in-order index
of the key's first in-order occurrence when the key is present, and the
sentinel `-1` when it is absent (the embedding is a pure function of the
tree, which `find` does not modify). -/
theorem C8_find_rank :
    ∀ (t : Tree) (k : Int),
      find t k =
        if k ∈ inorder t then ((inorder t).indexOf k : Int) else -1 := by
  intro t k
  unfold find
  rw [findStep_run]
  by_cases hm : k ∈ inorder t
  · simp [hm]
  · simp [hm]

theorem searchPath_of_not_mem :
    ∀ (t : Tree) (x : Int) (p : List (Bool × Int)), x ∉ inorder t →
      searchPath t x p = none := by
  intro t
  induction t with
  | leaf => intro x p _; rfl
  | node l k r ihl ihr =>
    intro x p hx
    simp only [inorder, List.mem_append, List.mem_cons, not_or] at hx
    obtain ⟨hxl, hxk, hxr⟩ := hx
    simp only [searchPath, if_neg hxk]
    by_cases h : x < k
    · rw [if_pos h]; exact ihl x _ hxl
    · rw [if_neg h]; exact ihr x _ hxr

theorem removeAt_of_not_mem :
    ∀ (t : Tree) (x : Int), x ∉ inorder t → removeAt t x = none := by
  intro t
  induction t with
  | leaf => intro x _; rfl
  | node l k r ihl ihr =>
    intro x hx
    simp only [inorder, List.mem_append, List.mem_cons, not_or] at hx
    obtain ⟨hxl, hxk, hxr⟩ := hx
    simp only [removeAt, if_neg hxk]
    by_cases h : x < k
    · rw [if_pos h, ihl x hxl]; rfl
    · rw [if_neg h, ihr x hxr]; rfl

/-- C5 (amended).  On the empty tree, `minimum`, `maximum`,
`successor(k)` and `predecessor(k)` each fail with EmptyTree.  On any
nonempty tree, `remove(k)` with `k` absent fails with KeyNotFound
(returning the error before any structural change), and
`successor(k)`/`predecessor(k)` with `k` absent likewise fail with
KeyNotFound; on the empty tree, however, `remove(k)` fails with EmptyTree,
not KeyNotFound. -/
theorem C5_error_handling :
    minimumE .leaf = .error .emptyTree ∧
    maximumE .leaf = .error .emptyTree ∧
    (∀ k : Int, successorE .leaf k = .error .emptyTree) ∧
    (∀ k : Int, predecessorE .leaf k = .error .emptyTree) ∧
    (∀ k : Int, removeE .leaf k = some (.error .emptyTree)) ∧
    (∀ (t : Tree) (k : Int), t ≠ .leaf → k ∉ inorder t →
      removeE t k = some (.error .keyNotFound)) ∧
    (∀ (t : Tree) (k : Int), t ≠ .leaf → k ∉ inorder t →
      successorE t k = .error .keyNotFound) ∧
    (∀ (t : Tree) (k : Int), t ≠ .leaf → k ∉ inorder t →
      predecessorE t k = .error .keyNotFound) := by
  refine ⟨rfl, rfl, fun k => rfl, fun k => rfl, fun k => rfl, ?_, ?_, ?_⟩
  · intro t k ht hk
    match t with
    | .node l c r =>
      simp only [removeE, removeAt_of_not_mem _ k hk]
  · intro t k ht hk
    match t with
    | .node l c r =>
      simp only [successorE, searchPath_of_not_mem _ k [] hk]
  · intro t k ht hk
    match t with
    | .node l c r =>
      simp only [predecessorE, searchPath_of_not_mem _ k [] hk]

/-- C5 counterexample: the claim quantifies over *any* tree, but on the
empty tree `remove(42)` fails with EmptyTree, not KeyNotFound (the
`m_root` null check precedes the key search). -/
theorem C5_counterexample_remove_empty :
    removeE .leaf 42 = some (.error .emptyTree) ∧
      Err.emptyTree ≠ Err.keyNotFound := ⟨rfl, by decide⟩

/-- Witness for the amended C5: concrete instances discharging the
hypotheses (singleton tree `{7}`, absent key `42`). -/
theorem C5_error_handling_witness :
    removeE (.node .leaf 7 .leaf) 42 = some (.error .keyNotFound) ∧
    successorE (.node .leaf 7 .leaf) 42 = .error .keyNotFound ∧
    predecessorE (.node .leaf 7 .leaf) 42 = .error .keyNotFound :=
  ⟨C5_error_handling.2.2.2.2.2.1 (.node .leaf 7 .leaf) 42 (by decide)
      (by decide),
    C5_error_handling.2.2.2.2.2.2.1 (.node .leaf 7 .leaf) 42 (by decide)
      (by decide),
    C5_error_handling.2.2.2.2.2.2.2 (.node .leaf 7 .leaf) 42 (by decide)
      (by decide)⟩

theorem stackMeas_pushIf (t : Tree) (s : List Tree) :
    stackMeas (pushIf t s) ≤ 2 * size t + 1 + stackMeas s := by
  cases t <;> simp [pushIf, stackMeas, stackSize]
  omega

theorem preM_pushIf : ∀ (t : Tree) (s : List Tree),
    preM (pushIf t s) = preorder t ++ preM s := by
  intro t
  induction t with
  | leaf => intro s; simp [pushIf, preorder]
  | node l k r ihl ihr =>
    intro s
    show preM (.node l k r :: s) = _
    rw [preM, ihl, ihr]
    simp [preorder]

theorem inM_run : ∀ (t : Tree) (s : List Tree),
    inM s t = inorder t ++ inM s .leaf := by
  intro t
  induction t with
  | leaf => intro s; simp [inorder]
  | node l k r ihl ihr =>
    intro s
    rw [show inM s (.node l k r) = inM (.node l k r :: s) l from by
      simp only [inM]]
    rw [ihl]
    rw [show inM (.node l k r :: s) .leaf = k :: inM s r from by
      simp only [inM]]
    rw [ihr]
    simp [inorder]

theorem postTwoA_pushIf : ∀ (t : Tree) (s : List Tree) (acc : List Int),
    postTwoA (pushIf t s) acc = postTwoA s (postorder t ++ acc) := by
  intro t
  induction t with
  | leaf => intro s acc; simp [pushIf, postorder]
  | node l k r ihl ihr =>
    intro s acc
    show postTwoA (.node l k r :: s) acc = _
    rw [postTwoA, ihr, ihl]
    simp [postorder]

theorem annot_snd : ∀ (t : Tree) (n : Nat), (annot t n).2 = n + size t := by
  intro t
  induction t with
  | leaf => intro n; simp [annot, size]
  | node l k r ihl ihr =>
    intro n
    simp only [annot, size, ihl, ihr]
    omega

theorem annot_ids_bound : ∀ (t : Tree) (n j : Nat),
    j ∈ idsOf (annot t n).1 → n ≤ j ∧ j < n + size t := by
  intro t
  induction t with
  | leaf => intro n j hj; simp [annot, idsOf] at hj
  | node l k r ihl ihr =>
    intro n j hj
    simp only [annot, idsOf, List.mem_cons, List.mem_append] at hj
    have hsz : (annot l (n + 1)).2 = n + 1 + size l := annot_snd l (n + 1)
    rcases hj with rfl | hj | hj
    · simp only [size]; omega
    · have := ihl (n + 1) j hj
      simp only [size]; omega
    · have := ihr ((annot l (n + 1)).2) j hj
      rw [hsz] at this
      simp only [size]; omega

theorem annot_nodup : ∀ (t : Tree) (n : Nat), (idsOf (annot t n).1).Nodup := by
  intro t
  induction t with
  | leaf => intro n; simp [annot, idsOf]
  | node l k r ihl ihr =>
    intro n
    simp only [annot, idsOf]
    have hsz : (annot l (n + 1)).2 = n + 1 + size l := annot_snd l (n + 1)
    rw [List.nodup_cons]
    constructor
    · intro hmem
      rcases List.mem_append.mp hmem with h | h
      · exact absurd (annot_ids_bound l (n + 1) n h).1 (by omega)
      · exact absurd (annot_ids_bound r _ n h).1 (by rw [hsz]; omega)
    · refine List.Nodup.append (ihl (n + 1)) (ihr _) ?_
      intro j hjl hjr
      have h1 := annot_ids_bound l (n + 1) j hjl
      have h2 := annot_ids_bound r _ j hjr
      rw [hsz] at h2
      omega

theorem apost_annot : ∀ (t : Tree) (n : Nat),
    apost (annot t n).1 = postorder t := by
  intro t
  induction t with
  | leaf => intro n; rfl
  | node l k r ihl ihr =>
    intro n
    simp only [annot, apost, postorder, ihl, ihr]

theorem sameRef_node_iff (a l' : ATree) (k' : Int) (j : Nat) (r' : ATree) :
    sameRef a (.node l' k' j r') = true ↔ rootId a = some j := by
  cases a with
  | leaf => simp [sameRef, rootId]
  | node a1 a2 a3 a4 => simp [sameRef, rootId]

theorem rootId_mem : ∀ t : ATree, ∀ j, rootId t = some j → j ∈ idsOf t := by
  intro t j h
  cases t with
  | leaf => simp [rootId] at h
  | node l k i r =>
    simp only [rootId, Option.some.injEq] at h
    simp [idsOf, h]

theorem poM_descend (fuel : Nat) (s : List ATree) (l : ATree) (k : Int)
    (i : Nat) (r : ATree) (last : ATree) :
    poM (fuel + 1) s (.node l k i r) last =
      poM fuel (.node l k i r :: s) l last := by
  simp only [poM]

theorem poM_visit (fuel : Nat) (s : List ATree) (l : ATree) (k : Int)
    (i : Nat) (r : ATree) (last : ATree)
    (h : r = .leaf ∨ sameRef last r = true) :
    poM (fuel + 1) (.node l k i r :: s) .leaf last =
      (poM fuel s .leaf (.node l k i r)).map (fun xs => k :: xs) := by
  simp only [poM]
  rcases h with h | h
  · rw [if_pos (by simp [h])]
  · rw [if_pos (by simp [h])]

theorem poM_right (fuel : Nat) (s : List ATree) (l : ATree) (k : Int)
    (i : Nat) (r : ATree) (last : ATree)
    (h1 : r ≠ .leaf) (h2 : sameRef last r = false) :
    poM (fuel + 1) (.node l k i r :: s) .leaf last =
      poM fuel (.node l k i r :: s) r last := by
  simp only [poM]
  rw [if_neg (by simp [h1, h2])]

/-- The one-stack machine fully traverses the subtree `t` in `stepsA t`
iterations, emits `apost t`, and hands control back with `t`\x27s root as the
new `last` (provided all ids of `t` are distinct and the incoming `last`
does not alias any node of `t`). -/
theorem poM_run : ∀ (t : ATree), (idsOf t).Nodup →
    ∀ (s : List ATree) (last : ATree) (fuel : Nat),
      (∀ j, rootId last = some j → j ∉ idsOf t) →
      poM (stepsA t + fuel) s t last =
        (poM fuel s .leaf (if t = .leaf then last else t)).map
          (fun xs => apost t ++ xs) := by
  intro t
  induction t with
  | leaf =>
    intro _ s last fuel _
    simp [stepsA, apost]
  | node l k i r ihl ihr =>
    intro hN s last fuel hL
    have hNl : (idsOf l).Nodup := by
      rw [idsOf, List.nodup_cons] at hN
      exact (List.nodup_append.mp hN.2).1
    have hNr : (idsOf r).Nodup := by
      rw [idsOf, List.nodup_cons] at hN
      exact (List.nodup_append.mp hN.2).2.1
    have hdisj : ∀ j ∈ idsOf l, j ∉ idsOf r := by
      rw [idsOf, List.nodup_cons] at hN
      exact fun j hj => (List.nodup_append.mp hN.2).2.2 hj
    have hLl : ∀ j, rootId last = some j → j ∉ idsOf l := by
      intro j hj hmem
      exact hL j hj (by simp [idsOf, hmem])
    -- the `last` in effect when the left subtree has been finished
    have hlastL : ∀ j, rootId (if l = .leaf then last else l) = some j →
        j ∉ idsOf r := by
      intro j hj hmem
      by_cases hl : l = .leaf
      · rw [if_pos hl] at hj
        exact hL j hj (by simp [idsOf, hmem])
      · rw [if_neg hl] at hj
        exact hdisj j (rootId_mem l j hj) hmem
    by_cases hr : r = .leaf
    · subst hr
      rw [show stepsA (.node l k i .leaf) + fuel =
            (stepsA l + (1 + fuel)) + 1 from by simp [stepsA]; omega]
      rw [poM_descend, ihl hNl _ last (1 + fuel) hLl]
      rw [show (1 : Nat) + fuel = fuel + 1 from by omega]
      rw [poM_visit fuel s l k i .leaf _ (Or.inl rfl)]
      rw [if_neg (by simp : ¬ (ATree.node l k i .leaf = .leaf))]
      cases poM fuel s ATree.leaf (ATree.node l k i ATree.leaf) <;>
        simp [apost]
    · rw [show stepsA (.node l k i r) + fuel =
            (stepsA l + ((stepsA r + (1 + fuel)) + 1)) + 1 from by
          simp [stepsA, if_neg hr]; omega]
      rw [poM_descend, ihl hNl _ last _ hLl]
      have hsame : sameRef (if l = .leaf then last else l) r = false := by
        cases hs : sameRef (if l = .leaf then last else l) r
        · rfl
        · obtain ⟨rl, rk, rj, rr, hre⟩ :
              ∃ rl rk rj rr, r = ATree.node rl rk rj rr := by
            cases r with
            | leaf => exact absurd rfl hr
            | node a b c d => exact ⟨a, b, c, d, rfl⟩
          rw [hre] at hs
          have hj := (sameRef_node_iff _ _ _ _ _).mp hs
          exact absurd (rootId_mem r rj (by rw [hre]; rfl))
            (hlastL rj hj)
      rw [poM_right _ _ l k i r _ hr hsame]
      rw [ihr hNr _ _ (1 + fuel) hlastL]
      rw [if_neg hr]
      rw [show (1 : Nat) + fuel = fuel + 1 from by omega]
      have hself : sameRef r r = true := by
        cases r with
        | leaf => exact absurd rfl hr
        | node a b c d => simp [sameRef]
      rw [poM_visit fuel s l k i r r (Or.inr hself)]
      rw [if_neg (by simp : ¬ (ATree.node l k i r = .leaf))]
      cases poM fuel s ATree.leaf (ATree.node l k i r) <;>
        simp [apost]

/-- C6.  For every binary tree the six traversal variants agree pairwise
within each order: the iterative pre-order equals the recursive pre-order,
the iterative in-order equals the recursive in-order, and the two-stack
and one-stack iterative post-orders both equal the recursive post-order
(the one-stack machine moreover terminates within its step budget,
returning `some`). -/
theorem C6_traversals_agree : ∀ t : Tree,
    preOrderIter t = preorder t ∧
    inOrderIter t = inorder t ∧
    postOrderIterTwoStacks t = postorder t ∧
    postOrderIterOneStack t = some (postorder t) := by
  intro t
  refine ⟨?_, ?_, ?_, ?_⟩
  · cases t with
    | leaf => rfl
    | node l k r =>
      show preM [.node l k r] = _
      rw [show [Tree.node l k r] = pushIf (.node l k r) [] from rfl,
        preM_pushIf]
      simp [preM]
  · cases t with
    | leaf => rfl
    | node l k r =>
      show inM [] (.node l k r) = _
      rw [inM_run]
      simp only [inM, List.append_nil]
  · cases t with
    | leaf => rfl
    | node l k r =>
      show postTwoA [.node l k r] [] = _
      rw [show [Tree.node l k r] = pushIf (.node l k r) [] from rfl,
        postTwoA_pushIf]
      simp [postTwoA]
  · cases t with
    | leaf => rfl
    | node l k r =>
      show poM (stepsA (annot (.node l k r) 0).1) []
        (annot (.node l k r) 0).1 .leaf = _
      have h := poM_run (annot (.node l k r) 0).1 (annot_nodup _ 0) [] .leaf 0
        (by intro j hj; simp [rootId] at hj)
      rw [show stepsA (annot (.node l k r) 0).1 =
            stepsA (annot (.node l k r) 0).1 + 0 from by omega, h]
      rw [if_neg (by simp [annot] : ¬ ((annot (.node l k r) 0).1 = .leaf))]
      show (poM 0 [] ATree.leaf _).map _ = _
      rw [show ∀ x, poM 0 [] ATree.leaf x = some [] from fun x => rfl]
      simp [apost_annot]

end Trees

namespace PTrees

/-- C3: the breadth-first constructor evaluated at a failing input and at
the spec's well-formed example.  On `[5, absent, 7, 1]`, index 3 pops the
absent left-child entry pushed at index 1 and then executes
`child_queue.push(node->m_left)` on that null `node` — a null-pointer
dereference (modelled `none`), not a typed MalformedConstruction failure.
On the well-formed layout `[5, 3, 8, absent, 4, absent, 9]` the
constructor builds the tree whose in-order reading is `[3, 4, 5, 8, 9]`,
with the first element as root and subsequent pairs assigned as
(left, right) children of successive FIFO-queue nodes. -/
theorem C3_bfs_absent_entry_dereference :
    bfsBuild [some 5, none, some 7, some 1] = none ∧
    (bfsBuild [some 5, some 3, some 8, none, some 4, none, some 9]).map
      (fun pt => inorderP 8 pt.nodes pt.root) = some [3, 4, 5, 8, 9] :=
  ⟨by decide, by decide⟩

/-- C4: the code evaluated at the failing input, the tree whose only node
holds 42.  `remove(42)` reaches `transplant(root, nullptr)`; the root
branch of `transplant` sets `m_root = v` and then assigns `v->m_parent`
*unconditionally*, so the call dereferences a null pointer (modelled
`none`) instead of succeeding and leaving the tree empty.  The second
conjunct evaluates the whole `remove` on the functional model. -/
theorem C4_remove_single_node_crash :
    transplantP ⟨[{ key := 42 : PNode }], some 0⟩ 0 none = none ∧
    Trees.removeE (.node .leaf 42 .leaf) 42 = none :=
  ⟨by decide, rfl⟩

/-- C10.  `left_rotate(x)` on a node `x` with no right child returns
immediately (`if (!y) return;`): the tree is completely unchanged and no
error is raised; symmetrically for `right_rotate(x)` with no left
child. -/
theorem C10_rotate_missing_child_identity :
    (∀ (t : PTree) (x : Nat) (nx : PNode),
      getN t.nodes x = some nx → nx.right = none →
        leftRotateP t x = some t) ∧
    (∀ (t : PTree) (x : Nat) (nx : PNode),
      getN t.nodes x = some nx → nx.left = none →
        rightRotateP t x = some t) := by
  constructor
  · intro t x nx hx hr
    simp [leftRotateP, hx, hr]
  · intro t x nx hx hl
    simp [rightRotateP, hx, hl]

/-- Witness for C10 at a concrete one-node tree. -/
theorem C10_rotate_missing_child_identity_witness :
    leftRotateP ⟨[{ key := 42 : PNode }], some 0⟩ 0 =
      some ⟨[{ key := 42 : PNode }], some 0⟩ ∧
    rightRotateP ⟨[{ key := 42 : PNode }], some 0⟩ 0 =
      some ⟨[{ key := 42 : PNode }], some 0⟩ :=
  ⟨C10_rotate_missing_child_identity.1 _ 0 { key := 42 } rfl rfl,
    C10_rotate_missing_child_identity.2 _ 0 { key := 42 } rfl rfl⟩

theorem getN_lt {a : List PNode} {i : Nat} {nd : PNode}
    (h : getN a i = some nd) : i < a.length := by
  by_contra hlt
  rw [getN, List.get?_eq_none.mpr (le_of_not_lt hlt)] at h
  exact Option.noConfusion h

theorem getN_set_eq {a : List PNode} {i : Nat} (nd : PNode)
    (h : i < a.length) : getN (a.set i nd) i = some nd := by
  simp [getN, List.getElem?_set_eq_of_lt, h]

theorem getN_set_ne {a : List PNode} (i j : Nat) (nd : PNode)
    (h : i ≠ j) : getN (a.set i nd) j = getN a j := by
  simp [getN, List.getElem?_set_ne h]

theorem setLeft_spec {a : List PNode} {i : Nat} {nd : PNode}
    (h : getN a i = some nd) (v : Option Nat) :
    setLeft a i v = some (a.set i { nd with left := v }) := by
  have h' : a[i]? = some nd := by
    have h2 : a.get? i = some nd := h
    simpa using h2
  simp [setLeft, h']

theorem setRight_spec {a : List PNode} {i : Nat} {nd : PNode}
    (h : getN a i = some nd) (v : Option Nat) :
    setRight a i v = some (a.set i { nd with right := v }) := by
  have h' : a[i]? = some nd := by
    have h2 : a.get? i = some nd := h
    simpa using h2
  simp [setRight, h']

theorem setParent_spec {a : List PNode} {i : Nat} {nd : PNode}
    (h : getN a i = some nd) (v : Option Nat) :
    setParent a i v = some (a.set i { nd with parent := v }) := by
  have h' : a[i]? = some nd := by
    have h2 : a.get? i = some nd := h
    simpa using h2
  simp [setParent, h']

/-- The number of changed parent back-references equals the length of any
duplicate-free list of indices characterising exactly the changed
positions. -/
theorem countParentChanges_eq (a c : List PNode) (idx : List Nat)
    (hnd : idx.Nodup)
    (hlt : ∀ i ∈ idx, i < a.length)
    (hiff : ∀ m, m < a.length →
      (((getN a m).map PNode.parent ≠ (getN c m).map PNode.parent) ↔
        m ∈ idx)) :
    countParentChanges a c = idx.length := by
  unfold countParentChanges parentChangedIdx
  refine List.Perm.length_eq ((List.perm_ext_iff_of_nodup
    (List.Nodup.filter _ (List.nodup_range _)) hnd).mpr ?_)
  intro m
  simp only [List.mem_filter, List.mem_range, decide_eq_true_eq]
  constructor
  · rintro ⟨hm, hp⟩
    exact (hiff m hm).mp hp
  · intro hm
    exact ⟨hlt m hm, (hiff m (hlt m hm)).mpr hm⟩

/-- Effect of `left_rotate(x)` on a configuration satisfying the spec's
structural-mirroring invariant: `x` is a node with right child `y`, `y`'s
parent reference is `x`, `y`'s left child (when present) points back to
`y` and aliases neither `x` nor `y`, `x` is not its own parent, `x`'s
parent is not its child `y`, and `x`'s parent (when present) dereferences.
The rotation succeeds, moves `y` into `x`'s former slot (new root when `x`
was the root, the old root otherwise), reattaches `y`'s left subtree as
`x`'s right child, makes `x` the left child of `y`, and changes the parent
back-references of exactly `y`, `x` and — when present — `y`'s left
child: three parent back-references when the inner subtree exists, two
otherwise. -/
theorem leftRotateP_spec (t : PTree) (x y : Nat) (nx ny : PNode)
    (hx : getN t.nodes x = some nx) (hyr : nx.right = some y)
    (hny : getN t.nodes y = some ny)
    (hyx : y ≠ x)
    (hmirror : ny.parent = some x)
    (hpx : nx.parent ≠ some x) (hpy : nx.parent ≠ some y)
    (hinner : ∀ b, ny.left = some b → ∃ nb, getN t.nodes b = some nb ∧
      nb.parent = some y ∧ b ≠ x ∧ b ≠ y)
    (hpar : ∀ p, nx.parent = some p → ∃ np, getN t.nodes p = some np) :
    ∃ t2 : PTree, leftRotateP t x = some t2 ∧
      (nx.parent = none → t2.root = some y) ∧
      (nx.parent ≠ none → t2.root = t.root) ∧
      getN t2.nodes x = some { nx with right := ny.left, parent := some y } ∧
      getN t2.nodes y = some { ny with left := some x, parent := nx.parent } ∧
      countParentChanges t.nodes t2.nodes =
        if ny.left = none then 2 else 3 := by
  have hxl : x < t.nodes.length := getN_lt hx
  have hyl : y < t.nodes.length := getN_lt hny
  have hxy : x ≠ y := fun h => hyx h.symm
  have e1 := setRight_spec hx ny.left
  rcases hnl : ny.left with _ | b
  · -- no inner subtree: parents change only at y and x
    rw [hnl] at e1
    simp only [hnl]
    rcases hp : nx.parent with _ | p
    · -- x was the root
      rw [hp] at e1
      have g1x : getN (t.nodes.set x
            { nx with right := none, parent := none }) x =
          some { nx with right := none, parent := none } :=
        getN_set_eq _ hxl
      have g1y : getN (t.nodes.set x
            { nx with right := none, parent := none }) y = some ny := by
        rw [getN_set_ne x y _ hxy]; exact hny
      have e3 := setParent_spec g1y (none : Option Nat)
      have g3x : getN ((t.nodes.set x
            { nx with right := none, parent := none }).set y
              { ny with left := none, parent := none }) x =
          some { nx with right := none, parent := none } := by
        rw [getN_set_ne y x _ hyx]; exact g1x
      have g3y : getN ((t.nodes.set x
            { nx with right := none, parent := none }).set y
              { ny with left := none, parent := none }) y =
          some { ny with left := none, parent := none } :=
        getN_set_eq _ (by simpa using hyl)
      have e5 := setLeft_spec g3y (some x)
      have g5x : getN (((t.nodes.set x
            { nx with right := none, parent := none }).set y
              { ny with left := none, parent := none }).set y
                { ny with parent := none, left := some x }) x =
          some { nx with right := none, parent := none } := by
        rw [getN_set_ne y x _ hyx]; exact g3x
      have e6 := setParent_spec g5x (some y)
      have g6x : getN ((((t.nodes.set x
            { nx with right := none, parent := none }).set y
              { ny with left := none, parent := none }).set y
                { ny with parent := none, left := some x }).set x
                  { nx with right := none, parent := some y }) x =
          some { nx with right := none, parent := some y } :=
        getN_set_eq _ (by simpa using hxl)
      have g6y : getN ((((t.nodes.set x
            { nx with right := none, parent := none }).set y
              { ny with left := none, parent := none }).set y
                { ny with parent := none, left := some x }).set x
                  { nx with right := none, parent := some y }) y =
          some { ny with parent := none, left := some x } := by
        rw [getN_set_ne x y _ hxy]
        exact getN_set_eq _ (by simpa using hyl)
      refine ⟨⟨((((t.nodes.set x
            { nx with right := none, parent := none }).set y
              { ny with left := none, parent := none }).set y
                { ny with parent := none, left := some x }).set x
                  { nx with right := none, parent := some y }), some y⟩,
        ?_, ?_, ?_, ?_, ?_, ?_⟩
      · simp only [leftRotateP, hx, Option.bind_eq_bind, Option.some_bind,
          hyr, hny, hnl, hp, e1, g1x, e3, g3x, g3y, e5, g5x, e6,
          Option.pure_def]
      · intro _; rfl
      · intro hcon; exact absurd rfl hcon
      · exact g6x
      · exact g6y
      · refine countParentChanges_eq _ _ [y, x] ?_ ?_ ?_
        · simp [hyx]
        · intro i hi
          rcases List.mem_pair.mp hi with rfl | rfl
          · exact hyl
          · exact hxl
        · intro m _
          by_cases hmx : m = x
          · subst hmx
            rw [hx, g6x]
            simp [hp]
          · by_cases hmy : m = y
            · subst hmy
              rw [hny, g6y]
              simp [hmirror]
            · rw [show getN ((((t.nodes.set x
                  { nx with right := none, parent := none }).set y
                    { ny with left := none, parent := none }).set y
                      { ny with parent := none, left := some x }).set x
                        { nx with right := none, parent := some y }) m =
                    getN t.nodes m from by
                  rw [getN_set_ne x m _ (fun h => hmx h.symm),
                    getN_set_ne y m _ (fun h => hmy h.symm),
                    getN_set_ne y m _ (fun h => hmy h.symm),
                    getN_set_ne x m _ (fun h => hmx h.symm)]]
              simp [hmx, hmy]
    · -- x had a parent p: its child slot is rewired, but only y and x
      -- change their parent references
      rw [hp] at e1
      have hpxp : p ≠ x := by intro h; apply hpx; rw [hp, h]
      have hpyp : p ≠ y := by intro h; apply hpy; rw [hp, h]
      obtain ⟨np0, hnp0⟩ := hpar p hp
      have hpl : p < t.nodes.length := getN_lt hnp0
      have g1x : getN (t.nodes.set x
            { nx with right := none, parent := some p }) x =
          some { nx with right := none, parent := some p } :=
        getN_set_eq _ hxl
      have g1y : getN (t.nodes.set x
            { nx with right := none, parent := some p }) y = some ny := by
        rw [getN_set_ne x y _ hxy]; exact hny
      have e3 := setParent_spec g1y (some p)
      have g3x : getN ((t.nodes.set x
            { nx with right := none, parent := some p }).set y
              { ny with left := none, parent := some p }) x =
          some { nx with right := none, parent := some p } := by
        rw [getN_set_ne y x _ hyx]; exact g1x
      have g3p : getN ((t.nodes.set x
            { nx with right := none, parent := some p }).set y
              { ny with left := none, parent := some p }) p = some np0 := by
        rw [getN_set_ne y p _ (fun h => hpyp h.symm),
          getN_set_ne x p _ (fun h => hpxp h.symm)]
        exact hnp0
      obtain ⟨np4, e4, hnp4⟩ : ∃ np4,
          (if np0.left = some x then
            setLeft ((t.nodes.set x
              { nx with right := none, parent := some p }).set y
                { ny with left := none, parent := some p }) p (some y)
          else
            setRight ((t.nodes.set x
              { nx with right := none, parent := some p }).set y
                { ny with left := none, parent := some p }) p (some y)) =
            some (((t.nodes.set x
              { nx with right := none, parent := some p }).set y
                { ny with left := none, parent := some p }).set p np4) ∧
          np4.parent = np0.parent := by
        by_cases hdir : np0.left = some x
        · exact ⟨{ np0 with left := some y },
            by rw [if_pos hdir]; exact setLeft_spec g3p _, rfl⟩
        · exact ⟨{ np0 with right := some y },
            by rw [if_neg hdir]; exact setRight_spec g3p _, rfl⟩
      have g4y : getN (((t.nodes.set x
            { nx with right := none, parent := some p }).set y
              { ny with left := none, parent := some p }).set p np4) y =
          some { ny with left := none, parent := some p } := by
        rw [getN_set_ne p y _ hpyp]
        exact getN_set_eq _ (by simpa using hyl)
      have e5 := setLeft_spec g4y (some x)
      have g5x : getN ((((t.nodes.set x
            { nx with right := none, parent := some p }).set y
              { ny with left := none, parent := some p }).set p np4).set y
                { ny with left := some x, parent := some p }) x =
          some { nx with right := none, parent := some p } := by
        rw [getN_set_ne y x _ hyx, getN_set_ne p x _ hpxp]
        exact g3x
      have e6 := setParent_spec g5x (some y)
      have g6x : getN (((((t.nodes.set x
            { nx with right := none, parent := some p }).set y
              { ny with left := none, parent := some p }).set p np4).set y
                { ny with left := some x, parent := some p }).set x
                  { nx with right := none, parent := some y }) x =
          some { nx with right := none, parent := some y } :=
        getN_set_eq _ (by simpa using hxl)
      have g6y : getN (((((t.nodes.set x
            { nx with right := none, parent := some p }).set y
              { ny with left := none, parent := some p }).set p np4).set y
                { ny with left := some x, parent := some p }).set x
                  { nx with right := none, parent := some y }) y =
          some { ny with left := some x, parent := some p } := by
        rw [getN_set_ne x y _ hxy]
        exact getN_set_eq _ (by simpa using hyl)
      have g6p : getN (((((t.nodes.set x
            { nx with right := none, parent := some p }).set y
              { ny with left := none, parent := some p }).set p np4).set y
                { ny with left := some x, parent := some p }).set x
                  { nx with right := none, parent := some y }) p =
          some np4 := by
        rw [getN_set_ne x p _ (fun h => hpxp h.symm),
          getN_set_ne y p _ (fun h => hpyp h.symm)]
        exact getN_set_eq _ (by simpa using hpl)
      refine ⟨⟨(((((t.nodes.set x
            { nx with right := none, parent := some p }).set y
              { ny with left := none, parent := some p }).set p np4).set y
                { ny with left := some x, parent := some p }).set x
                  { nx with right := none, parent := some y }), t.root⟩,
        ?_, ?_, ?_, ?_, ?_, ?_⟩
      · simp only [leftRotateP, hx, Option.bind_eq_bind, Option.some_bind,
          hyr, hny, hnl, hp, e1, g1x, e3, g3x, g3p, Option.pure_def]
        by_cases hdir : np0.left = some x
        · rw [if_pos hdir] at e4
          rw [if_pos hdir]
          simp only [Option.bind_eq_bind, e4, Option.some_bind, e5, g5x, e6,
            Option.pure_def]
        · rw [if_neg hdir] at e4
          rw [if_neg hdir]
          simp only [Option.bind_eq_bind, e4, Option.some_bind, e5, g5x, e6,
            Option.pure_def]
      · intro hcon; exact Option.noConfusion hcon
      · intro _; rfl
      · exact g6x
      · exact g6y
      · refine countParentChanges_eq _ _ [y, x] ?_ ?_ ?_
        · simp [hyx]
        · intro i hi
          rcases List.mem_pair.mp hi with rfl | rfl
          · exact hyl
          · exact hxl
        · intro m _
          by_cases hmx : m = x
          · subst hmx
            rw [hx, g6x]
            simp [hp, hpyp]
          · by_cases hmy : m = y
            · subst hmy
              rw [hny, g6y]
              simp [hmirror, Ne.symm hpxp]
            · by_cases hmp : m = p
              · subst hmp
                rw [hnp0, g6p]
                simp [hnp4, hpyp, hpxp]
              · rw [show getN (((((t.nodes.set x
                      { nx with right := none, parent := some p }).set y
                        { ny with left := none, parent := some p }).set p
                          np4).set y
                            { ny with left := some x, parent := some p }).set x
                              { nx with right := none, parent := some y }) m =
                      getN t.nodes m from by
                    rw [getN_set_ne x m _ (fun h => hmx h.symm),
                      getN_set_ne y m _ (fun h => hmy h.symm),
                      getN_set_ne p m _ (fun h => hmp h.symm),
                      getN_set_ne y m _ (fun h => hmy h.symm),
                      getN_set_ne x m _ (fun h => hmx h.symm)]]
                simp [hmx, hmy]
  · -- inner subtree b present: parents change at b, y and x
    rw [hnl] at e1
    obtain ⟨nb, hnb, hnbp, hbx, hby⟩ := hinner b hnl
    have hbl : b < t.nodes.length := getN_lt hnb
    rcases hp : nx.parent with _ | p
    · -- x was the root
      rw [hp] at e1
      have g1x : getN (t.nodes.set x { nx with right := some b, parent := none }) x = some { nx with right := some b, parent := none } := getN_set_eq _ hxl
      have g1b : getN (t.nodes.set x { nx with right := some b, parent := none }) b = some nb := by
        rw [getN_set_ne x b _ (fun h => hbx h.symm)]; exact hnb
      have e2 := setParent_spec g1b (some x)
      have g2x : getN ((t.nodes.set x { nx with right := some b, parent := none }).set b { nb with parent := some x }) x = some { nx with right := some b, parent := none } := by
        rw [getN_set_ne b x _ hbx]; exact g1x
      have g2y : getN ((t.nodes.set x { nx with right := some b, parent := none }).set b { nb with parent := some x }) y = some ny := by
        rw [getN_set_ne b y _ hby, getN_set_ne x y _ hxy]; exact hny
      have e3 := setParent_spec g2y (none : Option Nat)
      have g3x : getN (((t.nodes.set x { nx with right := some b, parent := none }).set b { nb with parent := some x }).set y { ny with left := some b, parent := none }) x = some { nx with right := some b, parent := none } := by
        rw [getN_set_ne y x _ hyx]; exact g2x
      have g3y : getN (((t.nodes.set x { nx with right := some b, parent := none }).set b { nb with parent := some x }).set y { ny with left := some b, parent := none }) y = some { ny with left := some b, parent := none } := getN_set_eq _ (by simpa using hyl)
      have e5 := setLeft_spec g3y (some x)
      have g5x : getN ((((t.nodes.set x { nx with right := some b, parent := none }).set b { nb with parent := some x }).set y { ny with left := some b, parent := none }).set y { ny with left := some x, parent := none }) x = some { nx with right := some b, parent := none } := by
        rw [getN_set_ne y x _ hyx]; exact g3x
      have e6 := setParent_spec g5x (some y)
      have g6x : getN (((((t.nodes.set x { nx with right := some b, parent := none }).set b { nb with parent := some x }).set y { ny with left := some b, parent := none }).set y { ny with left := some x, parent := none }).set x { nx with right := some b, parent := some y }) x = some { nx with right := some b, parent := some y } := getN_set_eq _ (by simpa using hxl)
      have g6y : getN (((((t.nodes.set x { nx with right := some b, parent := none }).set b { nb with parent := some x }).set y { ny with left := some b, parent := none }).set y { ny with left := some x, parent := none }).set x { nx with right := some b, parent := some y }) y = some { ny with left := some x, parent := none } := by
        rw [getN_set_ne x y _ hxy]
        exact getN_set_eq _ (by simpa using hyl)
      have g6b : getN (((((t.nodes.set x { nx with right := some b, parent := none }).set b { nb with parent := some x }).set y { ny with left := some b, parent := none }).set y { ny with left := some x, parent := none }).set x { nx with right := some b, parent := some y }) b = some { nb with parent := some x } := by
        rw [getN_set_ne x b _ (fun h => hbx h.symm),
          getN_set_ne y b _ (fun h => hby h.symm),
          getN_set_ne y b _ (fun h => hby h.symm)]
        exact getN_set_eq _ (by simpa using hbl)
      have g6m : ∀ m, m ≠ x → m ≠ y → m ≠ b →
          getN (((((t.nodes.set x { nx with right := some b, parent := none }).set b { nb with parent := some x }).set y { ny with left := some b, parent := none }).set y { ny with left := some x, parent := none }).set x { nx with right := some b, parent := some y }) m = getN t.nodes m := by
        intro m hmx hmy hmb
        rw [getN_set_ne x m _ (fun h => hmx h.symm),
          getN_set_ne y m _ (fun h => hmy h.symm),
          getN_set_ne y m _ (fun h => hmy h.symm),
          getN_set_ne b m _ (fun h => hmb h.symm),
          getN_set_ne x m _ (fun h => hmx h.symm)]
      refine ⟨⟨(((((t.nodes.set x { nx with right := some b, parent := none }).set b { nb with parent := some x }).set y { ny with left := some b, parent := none }).set y { ny with left := some x, parent := none }).set x { nx with right := some b, parent := some y }), some y⟩, ?_, ?_, ?_, ?_, ?_, ?_⟩
      · simp only [leftRotateP, hx, Option.bind_eq_bind, Option.some_bind,
          hyr, hny, hnl, hp, e1, e2, g2x, e3, g3x, g3y, e5, g5x, e6,
          Option.pure_def]
      · intro _; rfl
      · intro hcon; exact absurd rfl hcon
      · exact g6x
      · exact g6y
      · refine countParentChanges_eq _ _ [b, y, x] ?_ ?_ ?_
        · simp [hbx, hby, hyx]
        · intro i hi
          simp only [List.mem_cons, List.not_mem_nil, or_false] at hi
          rcases hi with rfl | rfl | rfl
          · exact hbl
          · exact hyl
          · exact hxl
        · intro m _
          by_cases hmx : m = x
          · subst hmx
            rw [hx, g6x]
            simp [hp]
          · by_cases hmy : m = y
            · subst hmy
              rw [hny, g6y]
              simp [hmirror]
            · by_cases hmb : m = b
              · subst hmb
                rw [hnb, g6b]
                simp [hnbp, hyx]
              · rw [g6m m hmx hmy hmb]
                simp [hmx, hmy, hmb]
    · -- x had a parent p
      rw [hp] at e1
      have hpxp : p ≠ x := by intro h; apply hpx; rw [hp, h]
      have hpyp : p ≠ y := by intro h; apply hpy; rw [hp, h]
      obtain ⟨np0, hnp0⟩ := hpar p hp
      have hpl : p < t.nodes.length := getN_lt hnp0
      have g1x : getN (t.nodes.set x { nx with right := some b, parent := some p }) x = some { nx with right := some b, parent := some p } := getN_set_eq _ hxl
      have g1b : getN (t.nodes.set x { nx with right := some b, parent := some p }) b = some nb := by
        rw [getN_set_ne x b _ (fun h => hbx h.symm)]; exact hnb
      have e2 := setParent_spec g1b (some x)
      have g2x : getN ((t.nodes.set x { nx with right := some b, parent := some p }).set b { nb with parent := some x }) x = some { nx with right := some b, parent := some p } := by
        rw [getN_set_ne b x _ hbx]; exact g1x
      have g2y : getN ((t.nodes.set x { nx with right := some b, parent := some p }).set b { nb with parent := some x }) y = some ny := by
        rw [getN_set_ne b y _ hby, getN_set_ne x y _ hxy]; exact hny
      have e3 := setParent_spec g2y (some p)
      have g3x : getN (((t.nodes.set x { nx with right := some b, parent := some p }).set b { nb with parent := some x }).set y { ny with left := some b, parent := some p }) x = some { nx with right := some b, parent := some p } := by
        rw [getN_set_ne y x _ hyx]; exact g2x
      obtain ⟨np3, g3p, hnp3⟩ : ∃ np3, getN (((t.nodes.set x { nx with right := some b, parent := some p }).set b { nb with parent := some x }).set y { ny with left := some b, parent := some p }) p = some np3 ∧
          np3.parent = (if p = b then some x else np0.parent) := by
        by_cases hpb : p = b
        · refine ⟨{ nb with parent := some x }, ?_, by simp [hpb]⟩
          rw [getN_set_ne y p _ (fun h => hpyp h.symm), hpb]
          exact getN_set_eq _ (by simpa using hbl)
        · refine ⟨np0, ?_, by simp [hpb]⟩
          rw [getN_set_ne y p _ (fun h => hpyp h.symm),
            getN_set_ne b p _ (fun h => hpb h.symm),
            getN_set_ne x p _ (fun h => hpxp h.symm)]
          exact hnp0
      obtain ⟨np4, e4, hnp4⟩ : ∃ np4,
          (if np3.left = some x then setLeft (((t.nodes.set x { nx with right := some b, parent := some p }).set b { nb with parent := some x }).set y { ny with left := some b, parent := some p }) p (some y)
           else setRight (((t.nodes.set x { nx with right := some b, parent := some p }).set b { nb with parent := some x }).set y { ny with left := some b, parent := some p }) p (some y)) = some ((((t.nodes.set x { nx with right := some b, parent := some p }).set b { nb with parent := some x }).set y { ny with left := some b, parent := some p }).set p np4) ∧
          np4.parent = np3.parent := by
        by_cases hdir : np3.left = some x
        · exact ⟨{ np3 with left := some y },
            by rw [if_pos hdir]; exact setLeft_spec g3p _, rfl⟩
        · exact ⟨{ np3 with right := some y },
            by rw [if_neg hdir]; exact setRight_spec g3p _, rfl⟩
      have g4y : getN ((((t.nodes.set x { nx with right := some b, parent := some p }).set b { nb with parent := some x }).set y { ny with left := some b, parent := some p }).set p np4) y = some { ny with left := some b, parent := some p } := by
        rw [getN_set_ne p y _ hpyp]
        exact getN_set_eq _ (by simpa using hyl)
      have e5 := setLeft_spec g4y (some x)
      have g5x : getN (((((t.nodes.set x { nx with right := some b, parent := some p }).set b { nb with parent := some x }).set y { ny with left := some b, parent := some p }).set p np4).set y { ny with left := some x, parent := some p }) x = some { nx with right := some b, parent := some p } := by
        rw [getN_set_ne y x _ hyx, getN_set_ne p x _ hpxp]
        exact g3x
      have e6 := setParent_spec g5x (some y)
      have g6x : getN ((((((t.nodes.set x { nx with right := some b, parent := some p }).set b { nb with parent := some x }).set y { ny with left := some b, parent := some p }).set p np4).set y { ny with left := some x, parent := some p }).set x { nx with right := some b, parent := some y }) x = some { nx with right := some b, parent := some y } := getN_set_eq _ (by simpa using hxl)
      have g6y : getN ((((((t.nodes.set x { nx with right := some b, parent := some p }).set b { nb with parent := some x }).set y { ny with left := some b, parent := some p }).set p np4).set y { ny with left := some x, parent := some p }).set x { nx with right := some b, parent := some y }) y = some { ny with left := some x, parent := some p } := by
        rw [getN_set_ne x y _ hxy]
        exact getN_set_eq _ (by simpa using hyl)
      have g6p : getN ((((((t.nodes.set x { nx with right := some b, parent := some p }).set b { nb with parent := some x }).set y { ny with left := some b, parent := some p }).set p np4).set y { ny with left := some x, parent := some p }).set x { nx with right := some b, parent := some y }) p = some np4 := by
        rw [getN_set_ne x p _ (fun h => hpxp h.symm),
          getN_set_ne y p _ (fun h => hpyp h.symm)]
        exact getN_set_eq _ (by simpa using hpl)
      have g6b : p ≠ b → getN ((((((t.nodes.set x { nx with right := some b, parent := some p }).set b { nb with parent := some x }).set y { ny with left := some b, parent := some p }).set p np4).set y { ny with left := some x, parent := some p }).set x { nx with right := some b, parent := some y }) b = some { nb with parent := some x } := by
        intro hpb
        rw [getN_set_ne x b _ (fun h => hbx h.symm),
          getN_set_ne y b _ (fun h => hby h.symm),
          getN_set_ne p b _ hpb,
          getN_set_ne y b _ (fun h => hby h.symm)]
        exact getN_set_eq _ (by simpa using hbl)
      have g6m : ∀ m, m ≠ x → m ≠ y → m ≠ b → m ≠ p →
          getN ((((((t.nodes.set x { nx with right := some b, parent := some p }).set b { nb with parent := some x }).set y { ny with left := some b, parent := some p }).set p np4).set y { ny with left := some x, parent := some p }).set x { nx with right := some b, parent := some y }) m = getN t.nodes m := by
        intro m hmx hmy hmb hmp
        rw [getN_set_ne x m _ (fun h => hmx h.symm),
          getN_set_ne y m _ (fun h => hmy h.symm),
          getN_set_ne p m _ (fun h => hmp h.symm),
          getN_set_ne y m _ (fun h => hmy h.symm),
          getN_set_ne b m _ (fun h => hmb h.symm),
          getN_set_ne x m _ (fun h => hmx h.symm)]
      refine ⟨⟨((((((t.nodes.set x { nx with right := some b, parent := some p }).set b { nb with parent := some x }).set y { ny with left := some b, parent := some p }).set p np4).set y { ny with left := some x, parent := some p }).set x { nx with right := some b, parent := some y }), t.root⟩, ?_, ?_, ?_, ?_, ?_, ?_⟩
      · simp only [leftRotateP, hx, Option.bind_eq_bind, Option.some_bind,
          hyr, hny, hnl, hp, e1, e2, g2x, e3, g3x, g3p, Option.pure_def]
        by_cases hdir : np3.left = some x
        · rw [if_pos hdir] at e4
          rw [if_pos hdir]
          simp only [Option.bind_eq_bind, e4, Option.some_bind, e5, g5x, e6,
            Option.pure_def]
        · rw [if_neg hdir] at e4
          rw [if_neg hdir]
          simp only [Option.bind_eq_bind, e4, Option.some_bind, e5, g5x, e6,
            Option.pure_def]
      · intro hcon; exact Option.noConfusion hcon
      · intro _; rfl
      · exact g6x
      · exact g6y
      · refine countParentChanges_eq _ _ [b, y, x] ?_ ?_ ?_
        · simp [hbx, hby, hyx]
        · intro i hi
          simp only [List.mem_cons, List.not_mem_nil, or_false] at hi
          rcases hi with rfl | rfl | rfl
          · exact hbl
          · exact hyl
          · exact hxl
        · intro m _
          by_cases hmx : m = x
          · subst hmx
            rw [hx, g6x]
            simp [hp, hpyp]
          · by_cases hmy : m = y
            · subst hmy
              rw [hny, g6y]
              simp [hmirror, Ne.symm hpxp]
            · by_cases hmb : m = b
              · subst hmb
                by_cases hpb : p = m
                · subst hpb
                  rw [hnb, g6p]
                  rw [if_pos rfl] at hnp3
                  simp [hnbp, hnp4, hnp3, hyx]
                · rw [hnb, g6b hpb]
                  simp [hnbp, hyx]
              · by_cases hmp : m = p
                · subst hmp
                  rw [hnp0, g6p]
                  rw [if_neg hmb] at hnp3
                  simp [hnp4, hnp3, hpyp, hpxp, hmb]
                · rw [g6m m hmx hmy hmb hmp]
                  simp [hmx, hmy, hmb]

/-- Mirror image of `leftRotateP_spec` for `right_rotate(x)` (note the
parent child-slot test is `parent->m_left == x` in both rotations, exactly
as in the source). -/
theorem rightRotateP_spec (t : PTree) (x y : Nat) (nx ny : PNode)
    (hx : getN t.nodes x = some nx) (hyr : nx.left = some y)
    (hny : getN t.nodes y = some ny)
    (hyx : y ≠ x)
    (hmirror : ny.parent = some x)
    (hpx : nx.parent ≠ some x) (hpy : nx.parent ≠ some y)
    (hinner : ∀ b, ny.right = some b → ∃ nb, getN t.nodes b = some nb ∧
      nb.parent = some y ∧ b ≠ x ∧ b ≠ y)
    (hpar : ∀ p, nx.parent = some p → ∃ np, getN t.nodes p = some np) :
    ∃ t2 : PTree, rightRotateP t x = some t2 ∧
      (nx.parent = none → t2.root = some y) ∧
      (nx.parent ≠ none → t2.root = t.root) ∧
      getN t2.nodes x = some { nx with left := ny.right, parent := some y } ∧
      getN t2.nodes y = some { ny with right := some x, parent := nx.parent } ∧
      countParentChanges t.nodes t2.nodes =
        if ny.right = none then 2 else 3 := by
  have hxl : x < t.nodes.length := getN_lt hx
  have hyl : y < t.nodes.length := getN_lt hny
  have hxy : x ≠ y := fun h => hyx h.symm
  have e1 := setLeft_spec hx ny.right
  rcases hnl : ny.right with _ | b
  · -- no inner subtree: parents change only at y and x
    rw [hnl] at e1
    simp only [hnl]
    rcases hp : nx.parent with _ | p
    · -- x was the root
      rw [hp] at e1
      have g1x : getN (t.nodes.set x
            { nx with left := none, parent := none }) x =
          some { nx with left := none, parent := none } :=
        getN_set_eq _ hxl
      have g1y : getN (t.nodes.set x
            { nx with left := none, parent := none }) y = some ny := by
        rw [getN_set_ne x y _ hxy]; exact hny
      have e3 := setParent_spec g1y (none : Option Nat)
      have g3x : getN ((t.nodes.set x
            { nx with left := none, parent := none }).set y
              { ny with right := none, parent := none }) x =
          some { nx with left := none, parent := none } := by
        rw [getN_set_ne y x _ hyx]; exact g1x
      have g3y : getN ((t.nodes.set x
            { nx with left := none, parent := none }).set y
              { ny with right := none, parent := none }) y =
          some { ny with right := none, parent := none } :=
        getN_set_eq _ (by simpa using hyl)
      have e5 := setRight_spec g3y (some x)
      have g5x : getN (((t.nodes.set x
            { nx with left := none, parent := none }).set y
              { ny with right := none, parent := none }).set y
                { ny with parent := none, right := some x }) x =
          some { nx with left := none, parent := none } := by
        rw [getN_set_ne y x _ hyx]; exact g3x
      have e6 := setParent_spec g5x (some y)
      have g6x : getN ((((t.nodes.set x
            { nx with left := none, parent := none }).set y
              { ny with right := none, parent := none }).set y
                { ny with parent := none, right := some x }).set x
                  { nx with left := none, parent := some y }) x =
          some { nx with left := none, parent := some y } :=
        getN_set_eq _ (by simpa using hxl)
      have g6y : getN ((((t.nodes.set x
            { nx with left := none, parent := none }).set y
              { ny with right := none, parent := none }).set y
                { ny with parent := none, right := some x }).set x
                  { nx with left := none, parent := some y }) y =
          some { ny with parent := none, right := some x } := by
        rw [getN_set_ne x y _ hxy]
        exact getN_set_eq _ (by simpa using hyl)
      refine ⟨⟨((((t.nodes.set x
            { nx with left := none, parent := none }).set y
              { ny with right := none, parent := none }).set y
                { ny with parent := none, right := some x }).set x
                  { nx with left := none, parent := some y }), some y⟩,
        ?_, ?_, ?_, ?_, ?_, ?_⟩
      · simp only [rightRotateP, hx, Option.bind_eq_bind, Option.some_bind,
          hyr, hny, hnl, hp, e1, g1x, e3, g3x, g3y, e5, g5x, e6,
          Option.pure_def]
      · intro _; rfl
      · intro hcon; exact absurd rfl hcon
      · exact g6x
      · exact g6y
      · refine countParentChanges_eq _ _ [y, x] ?_ ?_ ?_
        · simp [hyx]
        · intro i hi
          rcases List.mem_pair.mp hi with rfl | rfl
          · exact hyl
          · exact hxl
        · intro m _
          by_cases hmx : m = x
          · subst hmx
            rw [hx, g6x]
            simp [hp]
          · by_cases hmy : m = y
            · subst hmy
              rw [hny, g6y]
              simp [hmirror]
            · rw [show getN ((((t.nodes.set x
                  { nx with left := none, parent := none }).set y
                    { ny with right := none, parent := none }).set y
                      { ny with parent := none, right := some x }).set x
                        { nx with left := none, parent := some y }) m =
                    getN t.nodes m from by
                  rw [getN_set_ne x m _ (fun h => hmx h.symm),
                    getN_set_ne y m _ (fun h => hmy h.symm),
                    getN_set_ne y m _ (fun h => hmy h.symm),
                    getN_set_ne x m _ (fun h => hmx h.symm)]]
              simp [hmx, hmy]
    · -- x had a parent p: its child slot is rewired, but only y and x
      -- change their parent references
      rw [hp] at e1
      have hpxp : p ≠ x := by intro h; apply hpx; rw [hp, h]
      have hpyp : p ≠ y := by intro h; apply hpy; rw [hp, h]
      obtain ⟨np0, hnp0⟩ := hpar p hp
      have hpl : p < t.nodes.length := getN_lt hnp0
      have g1x : getN (t.nodes.set x
            { nx with left := none, parent := some p }) x =
          some { nx with left := none, parent := some p } :=
        getN_set_eq _ hxl
      have g1y : getN (t.nodes.set x
            { nx with left := none, parent := some p }) y = some ny := by
        rw [getN_set_ne x y _ hxy]; exact hny
      have e3 := setParent_spec g1y (some p)
      have g3x : getN ((t.nodes.set x
            { nx with left := none, parent := some p }).set y
              { ny with right := none, parent := some p }) x =
          some { nx with left := none, parent := some p } := by
        rw [getN_set_ne y x _ hyx]; exact g1x
      have g3p : getN ((t.nodes.set x
            { nx with left := none, parent := some p }).set y
              { ny with right := none, parent := some p }) p = some np0 := by
        rw [getN_set_ne y p _ (fun h => hpyp h.symm),
          getN_set_ne x p _ (fun h => hpxp h.symm)]
        exact hnp0
      obtain ⟨np4, e4, hnp4⟩ : ∃ np4,
          (if np0.left = some x then
            setLeft ((t.nodes.set x
              { nx with left := none, parent := some p }).set y
                { ny with right := none, parent := some p }) p (some y)
          else
            setRight ((t.nodes.set x
              { nx with left := none, parent := some p }).set y
                { ny with right := none, parent := some p }) p (some y)) =
            some (((t.nodes.set x
              { nx with left := none, parent := some p }).set y
                { ny with right := none, parent := some p }).set p np4) ∧
          np4.parent = np0.parent := by
        by_cases hdir : np0.left = some x
        · exact ⟨{ np0 with left := some y },
            by rw [if_pos hdir]; exact setLeft_spec g3p _, rfl⟩
        · exact ⟨{ np0 with right := some y },
            by rw [if_neg hdir]; exact setRight_spec g3p _, rfl⟩
      have g4y : getN (((t.nodes.set x
            { nx with left := none, parent := some p }).set y
              { ny with right := none, parent := some p }).set p np4) y =
          some { ny with right := none, parent := some p } := by
        rw [getN_set_ne p y _ hpyp]
        exact getN_set_eq _ (by simpa using hyl)
      have e5 := setRight_spec g4y (some x)
      have g5x : getN ((((t.nodes.set x
            { nx with left := none, parent := some p }).set y
              { ny with right := none, parent := some p }).set p np4).set y
                { ny with right := some x, parent := some p }) x =
          some { nx with left := none, parent := some p } := by
        rw [getN_set_ne y x _ hyx, getN_set_ne p x _ hpxp]
        exact g3x
      have e6 := setParent_spec g5x (some y)
      have g6x : getN (((((t.nodes.set x
            { nx with left := none, parent := some p }).set y
              { ny with right := none, parent := some p }).set p np4).set y
                { ny with right := some x, parent := some p }).set x
                  { nx with left := none, parent := some y }) x =
          some { nx with left := none, parent := some y } :=
        getN_set_eq _ (by simpa using hxl)
      have g6y : getN (((((t.nodes.set x
            { nx with left := none, parent := some p }).set y
              { ny with right := none, parent := some p }).set p np4).set y
                { ny with right := some x, parent := some p }).set x
                  { nx with left := none, parent := some y }) y =
          some { ny with right := some x, parent := some p } := by
        rw [getN_set_ne x y _ hxy]
        exact getN_set_eq _ (by simpa using hyl)
      have g6p : getN (((((t.nodes.set x
            { nx with left := none, parent := some p }).set y
              { ny with right := none, parent := some p }).set p np4).set y
                { ny with right := some x, parent := some p }).set x
                  { nx with left := none, parent := some y }) p =
          some np4 := by
        rw [getN_set_ne x p _ (fun h => hpxp h.symm),
          getN_set_ne y p _ (fun h => hpyp h.symm)]
        exact getN_set_eq _ (by simpa using hpl)
      refine ⟨⟨(((((t.nodes.set x
            { nx with left := none, parent := some p }).set y
              { ny with right := none, parent := some p }).set p np4).set y
                { ny with right := some x, parent := some p }).set x
                  { nx with left := none, parent := some y }), t.root⟩,
        ?_, ?_, ?_, ?_, ?_, ?_⟩
      · simp only [rightRotateP, hx, Option.bind_eq_bind, Option.some_bind,
          hyr, hny, hnl, hp, e1, g1x, e3, g3x, g3p, Option.pure_def]
        by_cases hdir : np0.left = some x
        · rw [if_pos hdir] at e4
          rw [if_pos hdir]
          simp only [Option.bind_eq_bind, e4, Option.some_bind, e5, g5x, e6,
            Option.pure_def]
        · rw [if_neg hdir] at e4
          rw [if_neg hdir]
          simp only [Option.bind_eq_bind, e4, Option.some_bind, e5, g5x, e6,
            Option.pure_def]
      · intro hcon; exact Option.noConfusion hcon
      · intro _; rfl
      · exact g6x
      · exact g6y
      · refine countParentChanges_eq _ _ [y, x] ?_ ?_ ?_
        · simp [hyx]
        · intro i hi
          rcases List.mem_pair.mp hi with rfl | rfl
          · exact hyl
          · exact hxl
        · intro m _
          by_cases hmx : m = x
          · subst hmx
            rw [hx, g6x]
            simp [hp, hpyp]
          · by_cases hmy : m = y
            · subst hmy
              rw [hny, g6y]
              simp [hmirror, Ne.symm hpxp]
            · by_cases hmp : m = p
              · subst hmp
                rw [hnp0, g6p]
                simp [hnp4, hpyp, hpxp]
              · rw [show getN (((((t.nodes.set x
                      { nx with left := none, parent := some p }).set y
                        { ny with right := none, parent := some p }).set p
                          np4).set y
                            { ny with right := some x, parent := some p }).set x
                              { nx with left := none, parent := some y }) m =
                      getN t.nodes m from by
                    rw [getN_set_ne x m _ (fun h => hmx h.symm),
                      getN_set_ne y m _ (fun h => hmy h.symm),
                      getN_set_ne p m _ (fun h => hmp h.symm),
                      getN_set_ne y m _ (fun h => hmy h.symm),
                      getN_set_ne x m _ (fun h => hmx h.symm)]]
                simp [hmx, hmy]
  · -- inner subtree b present: parents change at b, y and x
    rw [hnl] at e1
    obtain ⟨nb, hnb, hnbp, hbx, hby⟩ := hinner b hnl
    have hbl : b < t.nodes.length := getN_lt hnb
    rcases hp : nx.parent with _ | p
    · -- x was the root
      rw [hp] at e1
      have g1x : getN (t.nodes.set x { nx with left := some b, parent := none }) x = some { nx with left := some b, parent := none } := getN_set_eq _ hxl
      have g1b : getN (t.nodes.set x { nx with left := some b, parent := none }) b = some nb := by
        rw [getN_set_ne x b _ (fun h => hbx h.symm)]; exact hnb
      have e2 := setParent_spec g1b (some x)
      have g2x : getN ((t.nodes.set x { nx with left := some b, parent := none }).set b { nb with parent := some x }) x = some { nx with left := some b, parent := none } := by
        rw [getN_set_ne b x _ hbx]; exact g1x
      have g2y : getN ((t.nodes.set x { nx with left := some b, parent := none }).set b { nb with parent := some x }) y = some ny := by
        rw [getN_set_ne b y _ hby, getN_set_ne x y _ hxy]; exact hny
      have e3 := setParent_spec g2y (none : Option Nat)
      have g3x : getN (((t.nodes.set x { nx with left := some b, parent := none }).set b { nb with parent := some x }).set y { ny with right := some b, parent := none }) x = some { nx with left := some b, parent := none } := by
        rw [getN_set_ne y x _ hyx]; exact g2x
      have g3y : getN (((t.nodes.set x { nx with left := some b, parent := none }).set b { nb with parent := some x }).set y { ny with right := some b, parent := none }) y = some { ny with right := some b, parent := none } := getN_set_eq _ (by simpa using hyl)
      have e5 := setRight_spec g3y (some x)
      have g5x : getN ((((t.nodes.set x { nx with left := some b, parent := none }).set b { nb with parent := some x }).set y { ny with right := some b, parent := none }).set y { ny with right := some x, parent := none }) x = some { nx with left := some b, parent := none } := by
        rw [getN_set_ne y x _ hyx]; exact g3x
      have e6 := setParent_spec g5x (some y)
      have g6x : getN (((((t.nodes.set x { nx with left := some b, parent := none }).set b { nb with parent := some x }).set y { ny with right := some b, parent := none }).set y { ny with right := some x, parent := none }).set x { nx with left := some b, parent := some y }) x = some { nx with left := some b, parent := some y } := getN_set_eq _ (by simpa using hxl)
      have g6y : getN (((((t.nodes.set x { nx with left := some b, parent := none }).set b { nb with parent := some x }).set y { ny with right := some b, parent := none }).set y { ny with right := some x, parent := none }).set x { nx with left := some b, parent := some y }) y = some { ny with right := some x, parent := none } := by
        rw [getN_set_ne x y _ hxy]
        exact getN_set_eq _ (by simpa using hyl)
      have g6b : getN (((((t.nodes.set x { nx with left := some b, parent := none }).set b { nb with parent := some x }).set y { ny with right := some b, parent := none }).set y { ny with right := some x, parent := none }).set x { nx with left := some b, parent := some y }) b = some { nb with parent := some x } := by
        rw [getN_set_ne x b _ (fun h => hbx h.symm),
          getN_set_ne y b _ (fun h => hby h.symm),
          getN_set_ne y b _ (fun h => hby h.symm)]
        exact getN_set_eq _ (by simpa using hbl)
      have g6m : ∀ m, m ≠ x → m ≠ y → m ≠ b →
          getN (((((t.nodes.set x { nx with left := some b, parent := none }).set b { nb with parent := some x }).set y { ny with right := some b, parent := none }).set y { ny with right := some x, parent := none }).set x { nx with left := some b, parent := some y }) m = getN t.nodes m := by
        intro m hmx hmy hmb
        rw [getN_set_ne x m _ (fun h => hmx h.symm),
          getN_set_ne y m _ (fun h => hmy h.symm),
          getN_set_ne y m _ (fun h => hmy h.symm),
          getN_set_ne b m _ (fun h => hmb h.symm),
          getN_set_ne x m _ (fun h => hmx h.symm)]
      refine ⟨⟨(((((t.nodes.set x { nx with left := some b, parent := none }).set b { nb with parent := some x }).set y { ny with right := some b, parent := none }).set y { ny with right := some x, parent := none }).set x { nx with left := some b, parent := some y }), some y⟩, ?_, ?_, ?_, ?_, ?_, ?_⟩
      · simp only [rightRotateP, hx, Option.bind_eq_bind, Option.some_bind,
          hyr, hny, hnl, hp, e1, e2, g2x, e3, g3x, g3y, e5, g5x, e6,
          Option.pure_def]
      · intro _; rfl
      · intro hcon; exact absurd rfl hcon
      · exact g6x
      · exact g6y
      · refine countParentChanges_eq _ _ [b, y, x] ?_ ?_ ?_
        · simp [hbx, hby, hyx]
        · intro i hi
          simp only [List.mem_cons, List.not_mem_nil, or_false] at hi
          rcases hi with rfl | rfl | rfl
          · exact hbl
          · exact hyl
          · exact hxl
        · intro m _
          by_cases hmx : m = x
          · subst hmx
            rw [hx, g6x]
            simp [hp]
          · by_cases hmy : m = y
            · subst hmy
              rw [hny, g6y]
              simp [hmirror]
            · by_cases hmb : m = b
              · subst hmb
                rw [hnb, g6b]
                simp [hnbp, hyx]
              · rw [g6m m hmx hmy hmb]
                simp [hmx, hmy, hmb]
    · -- x had a parent p
      rw [hp] at e1
      have hpxp : p ≠ x := by intro h; apply hpx; rw [hp, h]
      have hpyp : p ≠ y := by intro h; apply hpy; rw [hp, h]
      obtain ⟨np0, hnp0⟩ := hpar p hp
      have hpl : p < t.nodes.length := getN_lt hnp0
      have g1x : getN (t.nodes.set x { nx with left := some b, parent := some p }) x = some { nx with left := some b, parent := some p } := getN_set_eq _ hxl
      have g1b : getN (t.nodes.set x { nx with left := some b, parent := some p }) b = some nb := by
        rw [getN_set_ne x b _ (fun h => hbx h.symm)]; exact hnb
      have e2 := setParent_spec g1b (some x)
      have g2x : getN ((t.nodes.set x { nx with left := some b, parent := some p }).set b { nb with parent := some x }) x = some { nx with left := some b, parent := some p } := by
        rw [getN_set_ne b x _ hbx]; exact g1x
      have g2y : getN ((t.nodes.set x { nx with left := some b, parent := some p }).set b { nb with parent := some x }) y = some ny := by
        rw [getN_set_ne b y _ hby, getN_set_ne x y _ hxy]; exact hny
      have e3 := setParent_spec g2y (some p)
      have g3x : getN (((t.nodes.set x { nx with left := some b, parent := some p }).set b { nb with parent := some x }).set y { ny with right := some b, parent := some p }) x = some { nx with left := some b, parent := some p } := by
        rw [getN_set_ne y x _ hyx]; exact g2x
      obtain ⟨np3, g3p, hnp3⟩ : ∃ np3, getN (((t.nodes.set x { nx with left := some b, parent := some p }).set b { nb with parent := some x }).set y { ny with right := some b, parent := some p }) p = some np3 ∧
          np3.parent = (if p = b then some x else np0.parent) := by
        by_cases hpb : p = b
        · refine ⟨{ nb with parent := some x }, ?_, by simp [hpb]⟩
          rw [getN_set_ne y p _ (fun h => hpyp h.symm), hpb]
          exact getN_set_eq _ (by simpa using hbl)
        · refine ⟨np0, ?_, by simp [hpb]⟩
          rw [getN_set_ne y p _ (fun h => hpyp h.symm),
            getN_set_ne b p _ (fun h => hpb h.symm),
            getN_set_ne x p _ (fun h => hpxp h.symm)]
          exact hnp0
      obtain ⟨np4, e4, hnp4⟩ : ∃ np4,
          (if np3.left = some x then setLeft (((t.nodes.set x { nx with left := some b, parent := some p }).set b { nb with parent := some x }).set y { ny with right := some b, parent := some p }) p (some y)
           else setRight (((t.nodes.set x { nx with left := some b, parent := some p }).set b { nb with parent := some x }).set y { ny with right := some b, parent := some p }) p (some y)) = some ((((t.nodes.set x { nx with left := some b, parent := some p }).set b { nb with parent := some x }).set y { ny with right := some b, parent := some p }).set p np4) ∧
          np4.parent = np3.parent := by
        by_cases hdir : np3.left = some x
        · exact ⟨{ np3 with left := some y },
            by rw [if_pos hdir]; exact setLeft_spec g3p _, rfl⟩
        · exact ⟨{ np3 with right := some y },
            by rw [if_neg hdir]; exact setRight_spec g3p _, rfl⟩
      have g4y : getN ((((t.nodes.set x { nx with left := some b, parent := some p }).set b { nb with parent := some x }).set y { ny with right := some b, parent := some p }).set p np4) y = some { ny with right := some b, parent := some p } := by
        rw [getN_set_ne p y _ hpyp]
        exact getN_set_eq _ (by simpa using hyl)
      have e5 := setRight_spec g4y (some x)
      have g5x : getN (((((t.nodes.set x { nx with left := some b, parent := some p }).set b { nb with parent := some x }).set y { ny with right := some b, parent := some p }).set p np4).set y { ny with right := some x, parent := some p }) x = some { nx with left := some b, parent := some p } := by
        rw [getN_set_ne y x _ hyx, getN_set_ne p x _ hpxp]
        exact g3x
      have e6 := setParent_spec g5x (some y)
      have g6x : getN ((((((t.nodes.set x { nx with left := some b, parent := some p }).set b { nb with parent := some x }).set y { ny with right := some b, parent := some p }).set p np4).set y { ny with right := some x, parent := some p }).set x { nx with left := some b, parent := some y }) x = some { nx with left := some b, parent := some y } := getN_set_eq _ (by simpa using hxl)
      have g6y : getN ((((((t.nodes.set x { nx with left := some b, parent := some p }).set b { nb with parent := some x }).set y { ny with right := some b, parent := some p }).set p np4).set y { ny with right := some x, parent := some p }).set x { nx with left := some b, parent := some y }) y = some { ny with right := some x, parent := some p } := by
        rw [getN_set_ne x y _ hxy]
        exact getN_set_eq _ (by simpa using hyl)
      have g6p : getN ((((((t.nodes.set x { nx with left := some b, parent := some p }).set b { nb with parent := some x }).set y { ny with right := some b, parent := some p }).set p np4).set y { ny with right := some x, parent := some p }).set x { nx with left := some b, parent := some y }) p = some np4 := by
        rw [getN_set_ne x p _ (fun h => hpxp h.symm),
          getN_set_ne y p _ (fun h => hpyp h.symm)]
        exact getN_set_eq _ (by simpa using hpl)
      have g6b : p ≠ b → getN ((((((t.nodes.set x { nx with left := some b, parent := some p }).set b { nb with parent := some x }).set y { ny with right := some b, parent := some p }).set p np4).set y { ny with right := some x, parent := some p }).set x { nx with left := some b, parent := some y }) b = some { nb with parent := some x } := by
        intro hpb
        rw [getN_set_ne x b _ (fun h => hbx h.symm),
          getN_set_ne y b _ (fun h => hby h.symm),
          getN_set_ne p b _ hpb,
          getN_set_ne y b _ (fun h => hby h.symm)]
        exact getN_set_eq _ (by simpa using hbl)
      have g6m : ∀ m, m ≠ x → m ≠ y → m ≠ b → m ≠ p →
          getN ((((((t.nodes.set x { nx with left := some b, parent := some p }).set b { nb with parent := some x }).set y { ny with right := some b, parent := some p }).set p np4).set y { ny with right := some x, parent := some p }).set x { nx with left := some b, parent := some y }) m = getN t.nodes m := by
        intro m hmx hmy hmb hmp
        rw [getN_set_ne x m _ (fun h => hmx h.symm),
          getN_set_ne y m _ (fun h => hmy h.symm),
          getN_set_ne p m _ (fun h => hmp h.symm),
          getN_set_ne y m _ (fun h => hmy h.symm),
          getN_set_ne b m _ (fun h => hmb h.symm),
          getN_set_ne x m _ (fun h => hmx h.symm)]
      refine ⟨⟨((((((t.nodes.set x { nx with left := some b, parent := some p }).set b { nb with parent := some x }).set y { ny with right := some b, parent := some p }).set p np4).set y { ny with right := some x, parent := some p }).set x { nx with left := some b, parent := some y }), t.root⟩, ?_, ?_, ?_, ?_, ?_, ?_⟩
      · simp only [rightRotateP, hx, Option.bind_eq_bind, Option.some_bind,
          hyr, hny, hnl, hp, e1, e2, g2x, e3, g3x, g3p, Option.pure_def]
        by_cases hdir : np3.left = some x
        · rw [if_pos hdir] at e4
          rw [if_pos hdir]
          simp only [Option.bind_eq_bind, e4, Option.some_bind, e5, g5x, e6,
            Option.pure_def]
        · rw [if_neg hdir] at e4
          rw [if_neg hdir]
          simp only [Option.bind_eq_bind, e4, Option.some_bind, e5, g5x, e6,
            Option.pure_def]
      · intro hcon; exact Option.noConfusion hcon
      · intro _; rfl
      · exact g6x
      · exact g6y
      · refine countParentChanges_eq _ _ [b, y, x] ?_ ?_ ?_
        · simp [hbx, hby, hyx]
        · intro i hi
          simp only [List.mem_cons, List.not_mem_nil, or_false] at hi
          rcases hi with rfl | rfl | rfl
          · exact hbl
          · exact hyl
          · exact hxl
        · intro m _
          by_cases hmx : m = x
          · subst hmx
            rw [hx, g6x]
            simp [hp, hpyp]
          · by_cases hmy : m = y
            · subst hmy
              rw [hny, g6y]
              simp [hmirror, Ne.symm hpxp]
            · by_cases hmb : m = b
              · subst hmb
                by_cases hpb : p = m
                · subst hpb
                  rw [hnb, g6p]
                  rw [if_pos rfl] at hnp3
                  simp [hnbp, hnp4, hnp3, hyx]
                · rw [hnb, g6b hpb]
                  simp [hnbp, hyx]
              · by_cases hmp : m = p
                · subst hmp
                  rw [hnp0, g6p]
                  rw [if_neg hmb] at hnp3
                  simp [hnp4, hnp3, hpyp, hpxp, hmb]
                · rw [g6m m hmx hmy hmb hmp]
                  simp [hmx, hmy, hmb]

/-- C9 (amended).  For every tree and node `x` on which `left_rotate`
(with right child `y`) or `right_rotate` (with left child `y`) is applied
— the tree satisfying the structural-mirroring invariant at the involved
nodes — the rotation reattaches `y`'s inner subtree to `x`, moves `y` into
`x`'s former slot (updating the tree root when `x` was the root, keeping
it otherwise), makes `x` a child of `y`, and changes exactly three parent
back-references when `y`'s inner subtree is present and exactly two when
it is absent — not always three as claimed. -/
theorem C9_rotation_parent_changes :
    (∀ (t : PTree) (x y : Nat) (nx ny : PNode),
      getN t.nodes x = some nx → nx.right = some y →
      getN t.nodes y = some ny → y ≠ x → ny.parent = some x →
      nx.parent ≠ some x → nx.parent ≠ some y →
      (∀ b, ny.left = some b → ∃ nb, getN t.nodes b = some nb ∧
        nb.parent = some y ∧ b ≠ x ∧ b ≠ y) →
      (∀ p, nx.parent = some p → ∃ np, getN t.nodes p = some np) →
      ∃ t2 : PTree, leftRotateP t x = some t2 ∧
        (nx.parent = none → t2.root = some y) ∧
        (nx.parent ≠ none → t2.root = t.root) ∧
        getN t2.nodes x =
          some { nx with right := ny.left, parent := some y } ∧
        getN t2.nodes y =
          some { ny with left := some x, parent := nx.parent } ∧
        countParentChanges t.nodes t2.nodes =
          if ny.left = none then 2 else 3) ∧
    (∀ (t : PTree) (x y : Nat) (nx ny : PNode),
      getN t.nodes x = some nx → nx.left = some y →
      getN t.nodes y = some ny → y ≠ x → ny.parent = some x →
      nx.parent ≠ some x → nx.parent ≠ some y →
      (∀ b, ny.right = some b → ∃ nb, getN t.nodes b = some nb ∧
        nb.parent = some y ∧ b ≠ x ∧ b ≠ y) →
      (∀ p, nx.parent = some p → ∃ np, getN t.nodes p = some np) →
      ∃ t2 : PTree, rightRotateP t x = some t2 ∧
        (nx.parent = none → t2.root = some y) ∧
        (nx.parent ≠ none → t2.root = t.root) ∧
        getN t2.nodes x =
          some { nx with left := ny.right, parent := some y } ∧
        getN t2.nodes y =
          some { ny with right := some x, parent := nx.parent } ∧
        countParentChanges t.nodes t2.nodes =
          if ny.right = none then 2 else 3) :=
  ⟨fun t x y nx ny hx hyr hny hyx hm hpx hpy hi hp =>
      leftRotateP_spec t x y nx ny hx hyr hny hyx hm hpx hpy hi hp,
    fun t x y nx ny hx hyr hny hyx hm hpx hpy hi hp =>
      rightRotateP_spec t x y nx ny hx hyr hny hyx hm hpx hpy hi hp⟩

/-- Witness for the amended C9 at concrete three-node trees (inner
subtree present, so exactly three parent back-references change). -/
theorem C9_rotation_parent_changes_witness :
    (∃ t2 : PTree,
      leftRotateP ⟨[⟨10, none, some 1, none⟩, ⟨20, some 2, none, some 0⟩,
        ⟨30, none, none, some 1⟩], some 0⟩ 0 = some t2 ∧
      ((none : Option Nat) = none → t2.root = some 1) ∧
      ((none : Option Nat) ≠ none → t2.root = some 0) ∧
      getN t2.nodes 0 = some ⟨10, none, some 2, some 1⟩ ∧
      getN t2.nodes 1 = some ⟨20, some 0, none, none⟩ ∧
      countParentChanges [⟨10, none, some 1, none⟩, ⟨20, some 2, none, some 0⟩,
        ⟨30, none, none, some 1⟩] t2.nodes = 3) ∧
    (∃ t2 : PTree,
      rightRotateP ⟨[⟨10, some 1, none, none⟩, ⟨20, none, some 2, some 0⟩,
        ⟨30, none, none, some 1⟩], some 0⟩ 0 = some t2 ∧
      ((none : Option Nat) = none → t2.root = some 1) ∧
      ((none : Option Nat) ≠ none → t2.root = some 0) ∧
      getN t2.nodes 0 = some ⟨10, some 2, none, some 1⟩ ∧
      getN t2.nodes 1 = some ⟨20, none, some 0, none⟩ ∧
      countParentChanges [⟨10, some 1, none, none⟩, ⟨20, none, some 2, some 0⟩,
        ⟨30, none, none, some 1⟩] t2.nodes = 3) := by
  constructor
  · exact C9_rotation_parent_changes.1
      ⟨[⟨10, none, some 1, none⟩, ⟨20, some 2, none, some 0⟩,
        ⟨30, none, none, some 1⟩], some 0⟩ 0 1
      ⟨10, none, some 1, none⟩ ⟨20, some 2, none, some 0⟩
      rfl rfl rfl (by decide) rfl (by decide) (by decide)
      (by intro b hb
          injection hb with h
          subst h
          exact ⟨⟨30, none, none, some 1⟩, rfl, rfl, by decide, by decide⟩)
      (by intro p hp; exact Option.noConfusion hp)
  · exact C9_rotation_parent_changes.2
      ⟨[⟨10, some 1, none, none⟩, ⟨20, none, some 2, some 0⟩,
        ⟨30, none, none, some 1⟩], some 0⟩ 0 1
      ⟨10, some 1, none, none⟩ ⟨20, none, some 2, some 0⟩
      rfl rfl rfl (by decide) rfl (by decide) (by decide)
      (by intro b hb
          injection hb with h
          subst h
          exact ⟨⟨30, none, none, some 1⟩, rfl, rfl, by decide, by decide⟩)
      (by intro p hp; exact Option.noConfusion hp)

/-- C9 counterexample: `left_rotate` at the root 10 of the two-node tree
`10 → (right) 20` — the rotated child `y = 20` has no left subtree, so
only two parent back-references change (`y`'s and `x`'s), not three. -/
theorem C9_counterexample_two_changes :
    (leftRotateP
        ⟨[⟨10, none, some 1, none⟩, ⟨20, none, none, some 0⟩], some 0⟩
        0).map
      (fun t2 => countParentChanges
        [⟨10, none, some 1, none⟩, ⟨20, none, none, some 0⟩] t2.nodes) =
      some 2 ∧ (2 : Nat) ≠ 3 :=
  ⟨by decide, by decide⟩

end PTrees
